import Mathlib

/-!
# goa: versioned request mux and application code generator

A shallow embedding of `mux.go` (package `goa`) and of
`goagen/gen_app/generator.go` (package `genapp`), followed by the properties
proved about them.

Conventions of the embedding

* a Go `error` is an `Option String`: `none` is `nil`, `some msg` carries the message;
* a Go map is a finite association list with unique keys (`AList`); a map *value*
  (which in Go is a reference that may be `nil`) is an optional address into a heap
  of such lists, so that in-place updates are visible through every alias;
* the file system is the list of the paths that exist;
* every fallible call into code the generator does not own (the `os` package and the
  five writers) takes its result from an oracle and is recorded in a log.
-/

namespace Goa

/-- Go `error`: `none` is the nil error. -/
abbrev Error := Option String

/-- The double quote character, used by the messages that quote a value. -/
def dquote : String := String.singleton (Char.ofNat 34)

/-! ## mux.go -/

/-- A `ServeMux` interface value; `none` is the nil interface. -/
abbrev ServeMux := Option Nat

/-- The part of `*http.Request` read by `GetRequestMux`:
`headerGet k` is `req.Header.Get(k)` and `queryGet k` is `req.URL.Query().Get(k)`;
both give the empty string when the key is absent. -/
structure Request where
  headerGet : String → String
  queryGet : String → String

/-- `DefaultVersionMux`: the default mux and the map of the muxes by version
(`muxes = none` is the nil map). -/
structure DefaultVersionMux where
  defaultMux : ServeMux
  muxes : Option (AList (fun _ : String => ServeMux))

namespace DefaultVersionMux

/-- `SetDefaultMux`. -/
def SetDefaultMux (m : DefaultVersionMux) (mux : ServeMux) : DefaultVersionMux :=
  { m with defaultMux := mux }

/-- `SetVersionMux`: the assignment `m.muxes[version] = mux`; there is no result when
`muxes` is the nil map, where the assignment panics. -/
def SetVersionMux (m : DefaultVersionMux) (version : String) (mux : ServeMux) :
    Option DefaultVersionMux :=
  match m.muxes with
  | none => none
  | some t => some { m with muxes := some (t.insert version mux) }

/-- `GetRequestMux`: the pair `(mux, err)` returned for the request. The lookup
`m.muxes[version]` finds nothing in the nil map. -/
def GetRequestMux (m : DefaultVersionMux) (req : Request) : ServeMux × Error :=
  let version := req.headerGet "X-API-Version"
  let version := if version = "" then req.queryGet "api_version" else version
  if version = "" then
    if m.defaultMux = none then
      (none, some "no version defined in request and no default mux")
    else
      (m.defaultMux, none)
  else
    match m.muxes with
    | none => (none, some ("no mux registered with version " ++ dquote ++ version ++ dquote))
    | some t =>
      match t.lookup version with
      | none => (none, some ("no mux registered with version " ++ dquote ++ version ++ dquote))
      | some mux => (mux, none)

end DefaultVersionMux

/-- The version indicator of a request as the specification words it: the header value
when it is not empty, the query value otherwise. -/
def versionIndicator (req : Request) : String :=
  if req.headerGet "X-API-Version" ≠ "" then req.headerGet "X-API-Version"
  else req.queryGet "api_version"

namespace MuxSample

/-- A version mux with the default mux 0 and the muxes 7 and 8 registered for the
versions `1` and `2`. -/
def mux : DefaultVersionMux :=
  { defaultMux := some 0
    muxes := some (AList.insert "2" (some 8) (AList.insert "1" (some 7) ∅)) }

/-- A request with the given values of the version header and of the version query
parameter, and nothing else. -/
def request (header query : String) : Request :=
  { headerGet := fun k => if k = "X-API-Version" then header else ""
    queryGet := fun k => if k = "api_version" then query else "" }

end MuxSample

/-! ## path and file-system primitives (Go packages `path/filepath` and `os`) -/

namespace Filepath

/-- The pieces of a path between its slashes (`strings.Split(path, "/")`). -/
def splitSlash : List Char → List (List Char)
  | [] => [[]]
  | c :: cs =>
    if c = '/' then [] :: splitSlash cs
    else
      match splitSlash cs with
      | [] => [[c]]
      | seg :: rest => (c :: seg) :: rest

/-- One element of the lexical cleaning, on the stack of the elements kept so far (last
element first): empty and `.` elements are dropped, `..` removes the element before it,
is dropped at the root and is kept at the start of a relative path. -/
def cleanStep (rooted : Bool) (stack : List (List Char)) (seg : List Char) :
    List (List Char) :=
  if seg = [] ∨ seg = ['.'] then stack
  else if seg = ['.', '.'] then
    match stack with
    | [] => if rooted then [] else [seg]
    | top :: rest => if top = ['.', '.'] then seg :: stack else rest
  else seg :: stack

/-- The elements of the cleaned path, first element first. -/
def cleanElems (rooted : Bool) (cs : List Char) : List (List Char) :=
  ((splitSlash cs).foldl (cleanStep rooted) []).reverse

/-- The characters of `filepath.Clean(path)`. -/
def cleanChars (cs : List Char) : List Char :=
  if cs.head? = some '/' then '/' :: List.intercalate ['/'] (cleanElems true cs)
  else if cleanElems false cs = [] then ['.']
  else List.intercalate ['/'] (cleanElems false cs)

/-- `filepath.Clean`. -/
def Clean (path : String) : String := String.mk (cleanChars path.toList)

/-- `filepath.Join`: the elements from the first non-empty one on are joined with
slashes and the result is cleaned; the result is empty when every element is empty. -/
def Join (elem : List String) : String :=
  match elem.dropWhile (fun e => e = "") with
  | [] => ""
  | rest => Clean (String.mk (List.intercalate ['/'] (rest.map String.toList)))

/-- A path element that cleaning keeps as it is or that is `..`: it is not empty, is not
`.` and holds no slash. -/
def Kept (seg : List Char) : Prop := seg ≠ [] ∧ seg ≠ ['.'] ∧ '/' ∉ seg

/-- The stacks the cleaning builds: every element is kept, and below a `..` there are
only `..` elements, in a relative path. -/
def CleanStack (rooted : Bool) : List (List Char) → Prop
  | [] => True
  | top :: rest =>
    Kept top ∧ (top = ['.', '.'] → rooted = false ∧ ∀ x ∈ rest, x = ['.', '.']) ∧
      CleanStack rooted rest

/-- What a path denotes: whether it is rooted, and its elements once cleaned. -/
def elemsOf (p : String) : Bool × List (List Char) :=
  (decide (p.toList.head? = some '/'),
    cleanElems (decide (p.toList.head? = some '/')) p.toList)

/-- A plain name: a single path element other than `.` and `..`. -/
def PlainName (v : String) : Bool :=
  decide (v.toList ≠ [] ∧ v.toList ≠ ['.'] ∧ v.toList ≠ ['.', '.'] ∧ '/' ∉ v.toList)

/-- The path elements a name adds when it is joined to a directory: none when it is
empty. -/
def nameElems (v : String) : List (List Char) :=
  if v = "" then [] else [v.toList]

end Filepath

namespace Os

/-- Whether the path `p` names `dir` itself or something below it. Both paths are read
through their cleaned elements: they are both rooted or both relative, the elements of
`dir` start those of `p`, and what follows in `p` does not climb out with `..`. So
everything relative that does not start with `..` lies within `.`, and a path lies within
the same directory written with or without a final slash. A rooted and a relative path
are never taken to name the same place. -/
def within (dir p : String) : Bool :=
  (Filepath.elemsOf dir).1 == (Filepath.elemsOf p).1 &&
    (Filepath.elemsOf dir).2.isPrefixOf (Filepath.elemsOf p).2 &&
    ((Filepath.elemsOf p).2.drop (Filepath.elemsOf dir).2.length).head? != some ['.', '.']

/-- The effect of an `os.RemoveAll(dir)` that succeeds on the existing paths: `dir` and
everything below it is gone. For the empty path `os.RemoveAll` removes nothing, and
removing a path that does not exist changes nothing. -/
def removeAll (dir : String) (fs : List String) : List String :=
  if dir = "" then fs else fs.filter (fun p => !within dir p)

/-- The proper ancestors of a path: what stands before each of its inner slashes. -/
def ancestors (seen : List Char) : List Char → List String
  | [] => []
  | c :: cs =>
    (if c = '/' ∧ seen ≠ [] then [String.mk seen] else []) ++ ancestors (seen ++ [c]) cs

/-- Adds a path to the existing ones. -/
def create (fs : List String) (p : String) : List String :=
  if p ∈ fs then fs else fs ++ [p]

/-- The effect of a successful `os.MkdirAll(dir)`: the directory and its missing parents
exist afterwards. -/
def mkdirAll (dir : String) (fs : List String) : List String :=
  (ancestors [] dir.toList ++ [dir]).foldl create fs

end Os

/-! ## design graph (package `design`, read by the generator) -/


namespace Design

/-- Modelled from the spec: the type `ResponseDefinition` of the design package, a
response specification. -/
structure ResponseDefinition where
  Name : String
  Status : Nat
  deriving DecidableEq, Repr

/-- The contents of a `map[string]*ResponseDefinition`. -/
abbrev ResponseMap := AList (fun _ : String => ResponseDefinition)

/-- A map value: `none` is the nil map, `some a` refers to the map stored at address `a`. -/
abbrev MapRef := Option Nat

/-- The maps of the design graph, by address. -/
abbrev Heap := Nat → ResponseMap

/-- What a reference denotes in a heap. -/
def deref (h : Heap) (m : MapRef) : Option ResponseMap := m.map h

/-- Modelled from the spec: the type `RouteDefinition` of the design package, a route
with its HTTP method and path template. -/
structure RouteDefinition where
  Verb : String
  Path : String
  deriving DecidableEq, Repr

/-- Modelled from the spec: the type `ActionDefinition` of the design package, with the
fields the generator reads. `Parent` stands for the pointer to the resource the action was declared
in, through the only field the generator reads of it, its name (`none` is a nil
pointer). `Responses` is the map of the responses declared on the action. -/
structure ActionDefinition where
  Name : String
  Parent : Option String
  Routes : List RouteDefinition
  Responses : MapRef
  deriving DecidableEq, Repr

/-- Modelled from the spec: the type `ResourceDefinition` of the design package, with
the fields the generator reads. `Actions` lists the actions in the order `IterateActions` visits them,
`CanonicalAction` is the result of the method of that name (`none` is nil) and
`Responses` is the map of the responses declared on the resource. -/
structure ResourceDefinition where
  Name : String
  Description : String
  MediaType : String
  Responses : MapRef
  Actions : List ActionDefinition
  CanonicalAction : Option ActionDefinition
  deriving DecidableEq, Repr

/-- Modelled from the spec: the type `DataType` of the design package, through its shape
tag. -/
inductive DataType where
  | primitive (name : String)
  | array
  | object
  | hash
  deriving DecidableEq, Repr

/-- Modelled from the spec: the method `IsObject` of the design package. -/
def DataType.IsObject : DataType → Bool
  | .object => true
  | _ => false

/-- Modelled from the spec: the method `IsArray` of the design package. -/
def DataType.IsArray : DataType → Bool
  | .array => true
  | _ => false

/-- Modelled from the spec: the type `MediaTypeDefinition` of the design package, with
identifier, type name and shape (`Typ` is the field `Type`). -/
structure MediaTypeDefinition where
  Identifier : String
  TypeName : String
  Typ : DataType
  deriving DecidableEq, Repr

/-- Modelled from the spec: the type `UserTypeDefinition` of the design package, with type
name and shape (`Typ` is the field `Type`). -/
structure UserTypeDefinition where
  TypeName : String
  Typ : DataType
  deriving DecidableEq, Repr

/-- Modelled from the spec: the type `APIVersionDefinition` of the design package, a
version of the API. `Context` is the result of the method of that name and
`Resources` lists the resources in the order `IterateResources` visits them. -/
structure APIVersionDefinition where
  Version : String
  Context : String
  Resources : List ResourceDefinition
  deriving DecidableEq, Repr

/-- Modelled from the spec: the type `APIDefinition` of the design package.
`Versions`, `MediaTypes` and `UserTypes` list the versions, media types
and user types in the order `IterateVersions`, `IterateMediaTypes` and
`IterateUserTypes` visit them. -/
structure APIDefinition where
  Context : String
  Versions : List APIVersionDefinition
  MediaTypes : List MediaTypeDefinition
  UserTypes : List UserTypeDefinition
  deriving DecidableEq, Repr

/-- Modelled from the spec: the method `MediaTypeWithIdentifier` of the design package,
the media type of the API with the given identifier when there is one. -/
def APIDefinition.MediaTypeWithIdentifier (api : APIDefinition) (id : String) :
    Option MediaTypeDefinition :=
  api.MediaTypes.find? (fun m => m.Identifier = id)

/-- Modelled from the spec: the method `URITemplate` of the design package, the path of
the first route of the canonical action of the resource, empty when there is none. -/
def ResourceDefinition.URITemplate (r : ResourceDefinition) : String :=
  match r.CanonicalAction with
  | none => ""
  | some ca =>
    match ca.Routes with
    | [] => ""
    | rt :: _ => rt.Path

/-- Modelled from the spec: `WildcardRegex.ReplaceAllLiteralString(path, repl)` of the
design package, a scan of the path that replaces every wildcard capture, a slash
followed by a colon and a non-empty name running up to the next slash, by `repl`.
`skipping` is set while the scan is inside a capture it has replaced. -/
def replaceWildcards (repl : List Char) : Bool → List Char → List Char
  | _, [] => []
  | skipping, c :: cs =>
    if c = '/' then
      match cs with
      | ':' :: n :: _ =>
        if n = '/' then c :: replaceWildcards repl false cs
        else repl ++ replaceWildcards repl true cs
      | _ => c :: replaceWildcards repl false cs
    else if skipping then replaceWildcards repl true cs
    else c :: replaceWildcards repl false cs

/-- Modelled from the spec: `WildcardRegex.ReplaceAllLiteralString` of the design package,
on strings. -/
def WildcardRegex.ReplaceAllLiteralString (path repl : String) : String :=
  String.mk (replaceWildcards repl.toList false path.toList)

/-- Modelled from the spec: the name a path element captures, which the wildcard
expression of the design package extracts: what follows the colon of an element that starts
with a colon and has more characters. -/
def captureName : List Char → Option String
  | ':' :: n :: rest => some (String.mk (n :: rest))
  | _ => none

/-- Where the scan for the wildcard captures stands: outside a capture, on the colon that
starts one, or inside its name, with the characters read so far. -/
inductive Scan where
  | outside
  | colon
  | name (acc : List Char)

/-- The capture a scan ends: the name read so far, when it is inside one. -/
def Scan.flush : Scan → List String
  | .name acc => [String.mk acc]
  | _ => []

/-- Modelled from the spec: the function `ExtractWildcards` of the design package, a
scan of the path that collects the name of every wildcard capture, a slash followed by a
colon and a non-empty name running up to the next slash. -/
def extractWildcards : Scan → List Char → List String
  | st, [] => st.flush
  | st, c :: cs =>
    if c = '/' then
      st.flush ++
        (match cs with
         | ':' :: n :: _ =>
           if n = '/' then extractWildcards .outside cs else extractWildcards .colon cs
         | _ => extractWildcards .outside cs)
    else
      match st with
      | .outside => extractWildcards .outside cs
      | .colon => extractWildcards (.name []) cs
      | .name acc => extractWildcards (.name (acc ++ [c])) cs

/-- Modelled from the spec: the method `Params` of the design package on a route, the
names of the wildcard captures of its path from left to right. -/
def RouteDefinition.Params (rt : RouteDefinition) : List String :=
  extractWildcards .outside rt.Path.toList

/-- The capture names of a path as the specification words them: the names of the
elements that are captures, in the order of the elements. Only the elements that follow
a slash can be captures. -/
def captureNames (path : String) : List String :=
  (Filepath.splitSlash path.toList).tail.filterMap captureName

/-- The elements of a path that follow a slash, each with its slash, a wildcard capture
being replaced by the placeholder `%v`. -/
def substituteElems (elems : List (List Char)) : List Char :=
  (elems.map (fun seg =>
    match captureName seg with
    | some _ => "/%v".toList
    | none => '/' :: seg)).flatten

/-- The canonical template as the specification words it: the path with each wildcard
capture replaced by the placeholder, element by element. -/
def substituteCaptures (path : String) : String :=
  match Filepath.splitSlash path.toList with
  | [] => ""
  | first :: rest => String.mk (first ++ substituteElems rest)

end Design

/-! ## goagen/gen_app/generator.go -/

namespace Genapp
open Design

/-- Modelled from the spec: the type `ContextTemplateData` of the writers, the record given
to the contexts writer for one action. Of the fields the generator sets,
`Payload`, `Params`, `Headers`, `API` and `Version` are left out: they are copied from
the design graph or computed by methods of the design package and no other field depends
on them. -/
structure ContextTemplateData where
  Name : String
  ResourceName : String
  ActionName : String
  Routes : List RouteDefinition
  Responses : MapRef
  deriving DecidableEq, Repr

/-- One entry of `ControllerTemplateData.Actions`: the map the generator builds with the
keys `Name`, `Routes` and `Context`. -/
structure ControllerAction where
  Name : String
  Routes : List RouteDefinition
  Context : String
  deriving DecidableEq, Repr

/-- Modelled from the spec: the type `ControllerTemplateData` of the writers, the record
given to the controllers writer for one resource, with the fields the generator sets. -/
structure ControllerTemplateData where
  Resource : String
  Version : String
  Actions : List ControllerAction
  deriving DecidableEq, Repr

/-- Modelled from the spec: the type `ResourceData` of the writers, the record given to
the resources writer for one resource, with the fields the generator sets (`Typ` is the
field `Type`). -/
structure ResourceData where
  Name : String
  Identifier : String
  Description : String
  Typ : Option MediaTypeDefinition
  CanonicalTemplate : String
  CanonicalParams : List String
  deriving DecidableEq, Repr

/-- The calls the generator makes into the `os` package and into the writers. An
`ExecuteContext` call also carries the contents the `Responses` map of the record has
at the time of the call, which is what the writer renders. -/
inductive Call where
  | MkdirAll (dir : String)
  | NewWriter (file : String)
  | WriteHeader (file title : String)
  | ExecuteContext (file : String) (data : ContextTemplateData) (responses : Option ResponseMap)
  | ExecuteControllers (file : String) (data : List ControllerTemplateData)
  | ExecuteResource (file : String) (data : ResourceData)
  | ExecuteMediaType (file : String) (mt : MediaTypeDefinition)
  | ExecuteUserType (file : String) (ut : UserTypeDefinition)
  | FormatCode (file : String)
  | RemoveAll (dir : String)

/-- What the generator reads from its surroundings: the package variables
`codegen.OutputDir`, `TargetPackage` and `design.Design`, the function `codegen.Goify`,
the command line with the result of parsing it, and the error each call returns. -/
structure Env where
  OutputDir : String
  TargetPackage : String
  Design : APIDefinition
  Goify : String → Bool → String
  Args : List String
  parse : Error
  io : Call → Error

/-- The state a run works on: the paths that exist, the maps of the design graph, the
log of the calls made with their results, and the field `genfiles` of the generator. -/
structure St where
  fs : List String
  heap : Heap
  log : List (Call × Error)
  genfiles : List String

/-- How a function that returns an `error` ended: with nil, with an error, or in a
panic. -/
inductive Res where
  | ok
  | err (e : String)
  | panic (msg : String)
  deriving DecidableEq, Repr

/-- How `Generator.Generate` ended: it returned its two results, or it panicked; `err`
is then the value its named result `err` had when the panic started. -/
inductive Outcome where
  | returned (files : List String) (err : Error)
  | panicked (msg : String) (err : Error)
  deriving DecidableEq, Repr

/-- The value of the named result `err` the deferred function sees. -/
def Outcome.err : Outcome → Error
  | .returned _ e => e
  | .panicked _ e => e

/-- Makes a call: the result comes from the oracle and the call is logged. -/
def call (env : Env) (c : Call) (s : St) : Error × St :=
  (env.io c, { s with log := s.log ++ [(c, env.io c)] })

/-- The result of a call as the result of the closure that returns it. -/
def Res.ofError : Error × St → Res × St
  | (none, s) => (.ok, s)
  | (some e, s) => (.err e, s)

/-- `os.MkdirAll(dir, perm)`. -/
def MkdirAll (env : Env) (dir : String) (s : St) : Error × St :=
  match call env (.MkdirAll dir) s with
  | (none, s1) => (none, { s1 with fs := Os.mkdirAll dir s1.fs })
  | (some e, s1) => (some e, s1)

/-- `os.RemoveAll(dir)`, whose result the source drops: when the call succeeds the
directory and everything below it is gone, and when it fails what exists is taken to
stay (a removal that stops half way is not modelled). -/
def RemoveAll (env : Env) (dir : String) (s : St) : St :=
  match call env (.RemoveAll dir) s with
  | (none, s1) => { s1 with fs := Os.removeAll dir s1.fs }
  | (some _, s1) => s1

/-- Modelled from the spec: the constructors `NewContextsWriter`, `NewControllersWriter`,
`NewResourcesWriter`, `NewMediaTypesWriter` and `NewUserTypesWriter`, which are not part
of the file; a writer owns one output file, which exists once the writer is built. -/
def NewWriter (env : Env) (file : String) (s : St) : Error × St :=
  match call env (.NewWriter file) s with
  | (none, s1) => (none, { s1 with fs := Os.create s1.fs file })
  | (some e, s1) => (some e, s1)

/-- Modelled from the spec: the method `WriteHeader` of a writer; the source drops its
result. -/
def WriteHeader (env : Env) (file title : String) (s : St) : St :=
  (call env (.WriteHeader file title) s).2

/-- Modelled from the spec: the method `FormatCode` of a writer. -/
def FormatCode (env : Env) (file : String) (s : St) : Error × St :=
  call env (.FormatCode file) s

/-- Modelled from the spec: the methods `IterateVersions`, `IterateResources`,
`IterateActions`, `IterateMediaTypes` and `IterateUserTypes` of the design package, which
call the iterator on each element in order and stop at the first one that does not
return nil. -/
def iterate {α : Type} (it : α → St → Res × St) : List α → St → Res × St
  | [], s => (.ok, s)
  | x :: xs, s =>
    match it x s with
    | (.ok, s1) => iterate it xs s1
    | (r, s1) => (r, s1)

/-- `AppOutputDir`. -/
def AppOutputDir (env : Env) : String :=
  Filepath.Join [env.OutputDir, env.TargetPackage]

/-- `MergeResponses(l, r)`: returns `r` when `l` is nil and `l` when `r` is nil; otherwise
ranges over `r`, assigns each entry into the map `l` refers to, and returns `l`. -/
def MergeResponses (h : Heap) (l r : MapRef) : MapRef × Heap :=
  match l, r with
  | none, _ => (r, h)
  | some a, none => (some a, h)
  | some a, some b =>
    (some a, Function.update h a ((h b).entries.foldl (fun m e => m.insert e.1 e.2) (h a)))

/-- The merge of the specification on map contents: nil-safe, otherwise every key of
both, the override winning on a collision. -/
def mergeSpec (base override : Option ResponseMap) : Option ResponseMap :=
  match base, override with
  | none, o => o
  | some b, none => some b
  | some b, some o => some (o ∪ b)

/-- `Generator.Cleanup`. -/
def Generator.Cleanup (env : Env) (s : St) : St :=
  if s.genfiles.length = 0 then s
  else { RemoveAll env (AppOutputDir env) s with genfiles := [] }

/-- `NewGenerator`: the error it returns and the state it leaves; on success the state
holds the new generator, whose `genfiles` is the output directory alone. -/
def NewGenerator (env : Env) (s : St) : Error × St :=
  match env.parse with
  | some e =>
    (some ("invalid command line: " ++ e ++ ". Command line was " ++ dquote ++
      String.intercalate " " env.Args ++ dquote), s)
  | none =>
    let outdir := AppOutputDir env
    let s1 := RemoveAll env outdir s
    match MkdirAll env outdir s1 with
    | (some e, s2) => (some e, s2)
    | (none, s2) => (none, { s2 with genfiles := [outdir] })

/-- The context type name `generateContexts` computes for an action, from the name of
the action and the name of its `Parent`; there is none when `Parent` is nil, where the
source dereferences a nil pointer. -/
def contextName (env : Env) (a : ActionDefinition) : Option String :=
  match a.Parent with
  | none => none
  | some parentName => some (env.Goify a.Name true ++ env.Goify parentName true ++ "Context")

/-- The iterator `generateContexts` gives to `IterateActions` for the resource `r`. -/
def contextsAction (env : Env) (ctxFile : String) (r : ResourceDefinition)
    (a : ActionDefinition) (s : St) : Res × St :=
  match contextName env a with
  | none => (.panic "invalid memory address or nil pointer dereference", s)
  | some ctxName =>
    let merged := MergeResponses s.heap r.Responses a.Responses
    let ctxData : ContextTemplateData :=
      { Name := ctxName
        ResourceName := r.Name
        ActionName := a.Name
        Routes := a.Routes
        Responses := merged.1 }
    Res.ofError (call env (.ExecuteContext ctxFile ctxData (deref merged.2 merged.1))
      { s with heap := merged.2 })

/-- `generateContexts`; the API is only copied into the field `API` of the records. -/
def generateContexts (env : Env) (verdir : String) (_api : APIDefinition)
    (version : APIVersionDefinition) (s : St) : Res × St :=
  let ctxFile := Filepath.Join [verdir, "contexts.go"]
  match NewWriter env ctxFile s with
  | (some e, s1) => (.panic e, s1)
  | (none, s1) =>
    let title := version.Context ++ ": Application Contexts"
    let s2 := WriteHeader env ctxFile title s1
    match iterate (fun r => iterate (contextsAction env ctxFile r) r.Actions)
        version.Resources s2 with
    | (.panic m, s3) => (.panic m, s3)
    | (.err e, s3) => (.err e, { s3 with genfiles := s3.genfiles ++ [ctxFile] })
    | (.ok, s3) => Res.ofError (FormatCode env ctxFile { s3 with genfiles := s3.genfiles ++ [ctxFile] })

/-- The context name `generateControllers` computes for an action of the resource `r`. -/
def controllerContext (env : Env) (r : ResourceDefinition) (a : ActionDefinition) : String :=
  env.Goify a.Name true ++ env.Goify r.Name true ++ "Context"

/-- The iterator `generateControllers` gives to `IterateActions`: it appends the entry of
the action to `data.Actions`. -/
def controllersAction (env : Env) (r : ResourceDefinition) (data : ControllerTemplateData)
    (a : ActionDefinition) : ControllerTemplateData :=
  { data with Actions := data.Actions ++
      [{ Name := env.Goify a.Name true, Routes := a.Routes, Context := controllerContext env r a }] }

/-- The iterator `generateControllers` gives to `IterateResources`: it builds the record
of the resource and appends it to `controllersData` when it has an action. Neither this
iterator nor the one of the actions returns an error or makes a call, so that the two
iterations are folds. -/
def controllersResource (env : Env) (version : APIVersionDefinition)
    (controllersData : List ControllerTemplateData) (r : ResourceDefinition) :
    List ControllerTemplateData :=
  let data : ControllerTemplateData :=
    { Resource := env.Goify r.Name true, Version := "", Actions := [] }
  let data := r.Actions.foldl (controllersAction env r) data
  if data.Actions.length > 0 then
    controllersData ++ [{ data with Version := version.Version }]
  else controllersData

/-- `generateControllers`. -/
def generateControllers (env : Env) (verdir : String) (version : APIVersionDefinition)
    (s : St) : Res × St :=
  let ctlFile := Filepath.Join [verdir, "controllers.go"]
  match NewWriter env ctlFile s with
  | (some e, s1) => (.panic e, s1)
  | (none, s1) =>
    let title := version.Context ++ ": Application Controllers"
    let s2 := WriteHeader env ctlFile title s1
    let controllersData := version.Resources.foldl (controllersResource env version) []
    let s3 := { s2 with genfiles := s2.genfiles ++ [ctlFile] }
    match call env (.ExecuteControllers ctlFile controllersData) s3 with
    | (some e, s4) => (.err e, s4)
    | (none, s4) => Res.ofError (FormatCode env ctlFile s4)

/-- The record `generateHrefs` builds for a resource. -/
def resourceData (env : Env) (r : ResourceDefinition) : ResourceData :=
  let m := env.Design.MediaTypeWithIdentifier r.MediaType
  let identifier :=
    match m with
    | some mt => mt.Identifier
    | none => "plain/text"
  let canoTemplate := r.URITemplate
  let canoTemplate := WildcardRegex.ReplaceAllLiteralString canoTemplate "/%v"
  let canoParams :=
    match r.CanonicalAction with
    | none => []
    | some ca =>
      match ca.Routes with
      | [] => []
      | rt :: _ => rt.Params
  { Name := env.Goify r.Name true
    Identifier := identifier
    Description := r.Description
    Typ := m
    CanonicalTemplate := canoTemplate
    CanonicalParams := canoParams }

/-- `generateHrefs`. -/
def generateHrefs (env : Env) (verdir : String) (version : APIVersionDefinition)
    (s : St) : Res × St :=
  let hrefFile := Filepath.Join [verdir, "hrefs.go"]
  match NewWriter env hrefFile s with
  | (some e, s1) => (.panic e, s1)
  | (none, s1) =>
    let title := version.Context ++ ": Application Resource Href Factories"
    let s2 := WriteHeader env hrefFile title s1
    match iterate (fun r st => Res.ofError (call env (.ExecuteResource hrefFile (resourceData env r)) st))
        version.Resources s2 with
    | (.panic m, s3) => (.panic m, s3)
    | (.err e, s3) => (.err e, { s3 with genfiles := s3.genfiles ++ [hrefFile] })
    | (.ok, s3) => Res.ofError (FormatCode env hrefFile { s3 with genfiles := s3.genfiles ++ [hrefFile] })

/-- The iterator `Generator.Generate` gives to `IterateVersions`. -/
def generateVersion (env : Env) (api : APIDefinition) (outdir : String)
    (v : APIVersionDefinition) (s : St) : Res × St :=
  let verdir := Filepath.Join [outdir, v.Version]
  match MkdirAll env verdir s with
  | (some e, s1) => (.err e, s1)
  | (none, s1) =>
    match generateContexts env verdir api v s1 with
    | (.ok, s2) =>
      match generateControllers env verdir v s2 with
      | (.ok, s3) => generateHrefs env verdir v s3
      | (r, s3) => (r, s3)
    | (r, s2) => (r, s2)

/-- The iterator `Generator.Generate` gives to `IterateMediaTypes`. -/
def mediaTypesIterator (env : Env) (mtFile : String) (mt : MediaTypeDefinition) (s : St) :
    Res × St :=
  if mt.Typ.IsObject || mt.Typ.IsArray then
    Res.ofError (call env (.ExecuteMediaType mtFile mt) s)
  else (.ok, s)

/-- The iterator `Generator.Generate` gives to `IterateUserTypes`. -/
def userTypesIterator (env : Env) (utFile : String) (t : UserTypeDefinition) (s : St) :
    Res × St :=
  Res.ofError (call env (.ExecuteUserType utFile t) s)

/-- The last part of the body of `Generator.Generate`: the user types file, then the
successful return. -/
def generateUserTypes (env : Env) (api : APIDefinition) (outdir : String) (s : St) :
    Outcome × St :=
  let utFile := Filepath.Join [outdir, "user_types.go"]
  match NewWriter env utFile s with
  | (some e, s1) => (.panicked e (some e), s1)
  | (none, s1) =>
    let title := api.Context ++ ": Application User Types"
    let s2 := WriteHeader env utFile title s1
    match iterate (userTypesIterator env utFile) api.UserTypes s2 with
    | (.panic m, s3) => (.panicked m none, s3)
    | (.err e, s3) => (.returned [] (some e), { s3 with genfiles := s3.genfiles ++ [utFile] })
    | (.ok, s3) =>
      match FormatCode env utFile { s3 with genfiles := s3.genfiles ++ [utFile] } with
      | (some e, s4) => (.returned [] (some e), s4)
      | (none, s4) => (.returned s4.genfiles none, s4)

/-- The middle part of the body of `Generator.Generate`: the media types file, then the
rest. -/
def generateMediaTypes (env : Env) (api : APIDefinition) (outdir : String) (s : St) :
    Outcome × St :=
  let mtFile := Filepath.Join [outdir, "media_types.go"]
  match NewWriter env mtFile s with
  | (some e, s1) => (.panicked e (some e), s1)
  | (none, s1) =>
    let title := api.Context ++ ": Application Media Types"
    let s2 := WriteHeader env mtFile title s1
    match iterate (mediaTypesIterator env mtFile) api.MediaTypes s2 with
    | (.panic m, s3) => (.panicked m none, s3)
    | (.err e, s3) => (.returned [] (some e), { s3 with genfiles := s3.genfiles ++ [mtFile] })
    | (.ok, s3) =>
      match FormatCode env mtFile { s3 with genfiles := s3.genfiles ++ [mtFile] } with
      | (some e, s4) => (.returned [] (some e), s4)
      | (none, s4) => generateUserTypes env api outdir s4

/-- The body of `Generator.Generate` after the nil check, up to the point where the
deferred function runs. -/
def generateBody (env : Env) (api : APIDefinition) (s : St) : Outcome × St :=
  let outdir := AppOutputDir env
  match iterate (generateVersion env api outdir) api.Versions s with
  | (.panic m, s1) => (.panicked m none, s1)
  | (.err e, s1) => (.returned [] (some e), s1)
  | (.ok, s1) => generateMediaTypes env api outdir s1

/-- `Generator.Generate`, on the path of a single goroutine: a nil API returns at once;
otherwise the body runs and then the deferred function, which calls `Cleanup` when the
named result `err` is not nil. The goroutine started with `utils.Catch`, which calls
`Cleanup` when the process receives a signal, is outside the model. -/
def Generator.Generate (env : Env) (api : Option APIDefinition) (s : St) : Outcome × St :=
  match api with
  | none =>
    (.returned []
      (some "missing API definition, make sure design.Design is properly initialized"), s)
  | some api =>
    let r := generateBody env api s
    (r.1, if r.1.err ≠ none then Generator.Cleanup env r.2 else r.2)

/-- `Generate`, the entry point. -/
def Generate (env : Env) (api : Option APIDefinition) (s : St) : Outcome × St :=
  match NewGenerator env s with
  | (some e, s1) => (.returned [] (some e), s1)
  | (none, s1) => Generator.Generate env api s1

/-! ### what the properties speak about -/

/-- The controller data the specification describes for a version: one group for each
resource that has an action, in the order of the resources, holding one entry for each
action of the resource, in the order of the actions. -/
def controllersSpec (env : Env) (version : APIVersionDefinition) :
    List ControllerTemplateData :=
  (version.Resources.filter (fun r => !r.Actions.isEmpty)).map (fun r =>
    { Resource := env.Goify r.Name true
      Version := version.Version
      Actions := r.Actions.map (fun a =>
        { Name := env.Goify a.Name true
          Routes := a.Routes
          Context := env.Goify a.Name true ++ env.Goify r.Name true ++ "Context" }) })

/-- The controller data given to the controllers writer, call by call. -/
def controllersPassed (log : List (Call × Error)) : List (List ControllerTemplateData) :=
  log.filterMap (fun ev =>
    match ev.1 with
    | .ExecuteControllers _ data => some data
    | _ => none)

/-- The media types the media types writer was executed on, call by call. -/
def mediaTypesExecuted (log : List (Call × Error)) : List MediaTypeDefinition :=
  log.filterMap (fun ev =>
    match ev.1 with
    | .ExecuteMediaType _ mt => some mt
    | _ => none)

/-- The files the writers were built for, call by call: the files the run generated. -/
def filesGenerated (log : List (Call × Error)) : List String :=
  log.filterMap (fun ev =>
    match ev with
    | (.NewWriter file, none) => some file
    | _ => none)

/-- The steps of `Generate` whose failure it returns as an error: creating a version
directory, executing a writer and formatting a file. The construction of a writer is not
among them, its failure is a panic; nor are the calls whose result the source drops. -/
def Call.isStep : Call → Bool
  | .NewWriter _ => false
  | .WriteHeader _ _ => false
  | .RemoveAll _ => false
  | _ => true

/-- Whether a logged call is a step that failed. -/
def stepFailed (ev : Call × Error) : Bool :=
  ev.1.isStep && ev.2.isSome

/-- The files of one version, in generation order. -/
def versionFiles (env : Env) (v : APIVersionDefinition) : List String :=
  let verdir := Filepath.Join [AppOutputDir env, v.Version]
  [Filepath.Join [verdir, "contexts.go"], Filepath.Join [verdir, "controllers.go"],
    Filepath.Join [verdir, "hrefs.go"]]

/-- The files of a run, in generation order: those of each version, then the media types
file and the user types file. -/
def expectedFiles (env : Env) (api : APIDefinition) : List String :=
  api.Versions.flatMap (versionFiles env) ++
    [Filepath.Join [AppOutputDir env, "media_types.go"],
      Filepath.Join [AppOutputDir env, "user_types.go"]]

/-- The number of `%v` placeholders in a template. -/
def countPlaceholders : List Char → Nat
  | [] => 0
  | c :: rest =>
    match c, rest with
    | '%', 'v' :: _ => 1 + countPlaceholders rest
    | _, _ => countPlaceholders rest

/-- The number of `%v` the path of a route holds by itself, outside its captures: in its
first element and in the elements after it that are not captures. -/
def staticPlaceholders (path : String) : Nat :=
  match Filepath.splitSlash path.toList with
  | [] => 0
  | first :: rest =>
    countPlaceholders first + (rest.map (fun seg =>
      match captureName seg with
      | some _ => 0
      | none => countPlaceholders seg)).sum

/-- The contexts writer calls: the action of each record with the keys of the responses
the writer sees for it, call by call. -/
def contextsExecuted (log : List (Call × Error)) : List (String × Option (List String)) :=
  log.filterMap (fun ev =>
    match ev.1 with
    | .ExecuteContext _ data responses => some (data.ActionName, responses.map AList.keys)
    | _ => none)

/-- The media types that get a representation: those of object or array shape. -/
def mediaTypesSpec (api : APIDefinition) : List MediaTypeDefinition :=
  api.MediaTypes.filter (fun mt => mt.Typ.IsObject || mt.Typ.IsArray)

/-- What a part of a run did, from the state `s` to the state `s'` with the result `r`:
it added calls to the log; the media types it executed are the first ones of `mts`, and
all of them when it returned nil; when it returned nil it added `gf` to `genfiles` and
built the writers of the files `wf`; when one of its steps failed it returned an error;
and it did not empty `genfiles`. -/
def Eff (s : St) (r : Res) (s' : St) (gf wf : List String)
    (mts : List MediaTypeDefinition) : Prop :=
  ∃ new, s'.log = s.log ++ new ∧
    mediaTypesExecuted new <+: mts ∧
    (r = .ok → mediaTypesExecuted new = mts ∧ s'.genfiles = s.genfiles ++ gf ∧
      filesGenerated new = wf) ∧
    ((∃ ev ∈ new, stepFailed ev = true) → ∃ e, r = .err e) ∧
    (s.genfiles ≠ [] → s'.genfiles ≠ [])

/-- How `Generator.Generate` ended, as the result of its body. -/
def Outcome.res : Outcome → Res
  | .returned _ none => .ok
  | .returned _ (some e) => .err e
  | .panicked msg _ => .panic msg

/-- What the last parts of the body of `Generator.Generate` did: as `Eff`, and the list
they return is `genfiles` without an error and nil with one. -/
def OEff (s : St) (o : Outcome) (s' : St) (gf wf : List String)
    (mts : List MediaTypeDefinition) : Prop :=
  Eff s o.res s' gf wf mts ∧
    (∀ files, o = .returned files none → files = s'.genfiles) ∧
    (∀ files e, o = .returned files (some e) → files = [])

/-- The path elements the files of a version have after those of the output
directory. -/
def versionSuffixes (v : APIVersionDefinition) : List (List (List Char)) :=
  [Filepath.nameElems v.Version ++ ["contexts.go".toList],
   Filepath.nameElems v.Version ++ ["controllers.go".toList],
   Filepath.nameElems v.Version ++ ["hrefs.go".toList]]

/-! ### sample designs -/

namespace Sample

/-- A stand-in for `codegen.Goify` on plain names: the first letter in upper case. -/
def goify (s : String) (_firstUpper : Bool) : String :=
  match s.toList with
  | [] => ""
  | c :: cs => String.mk (c.toUpper :: cs)

/-- The responses `A` and `B` of the merge law. -/
def respA : ResponseDefinition := ⟨"A", 200⟩

/-- The second response of the merge law. -/
def respB : ResponseDefinition := ⟨"B", 201⟩

/-- A heap with the map `OK ↦ A` at address 0 and the map `OK ↦ B` at address 1. -/
def lawHeap : Heap := fun a =>
  if a = 0 then AList.insert "OK" respA ∅
  else if a = 1 then AList.insert "OK" respB ∅
  else ∅

/-- The action `show` of the resource `Bottle`. -/
def showBottle : ActionDefinition :=
  { Name := "show", Parent := some "Bottle", Routes := [⟨"GET", "/bottles/:id"⟩],
    Responses := none }

/-- The resource `Bottle` with its single action `show`. -/
def bottle : ResourceDefinition :=
  { Name := "Bottle", Description := "", MediaType := "application/vnd.bottle",
    Responses := none, Actions := [showBottle], CanonicalAction := some showBottle }

/-- The action `show` of the resource `Review`, below a bottle. -/
def showReview : ActionDefinition :=
  { Name := "show", Parent := some "Review",
    Routes := [⟨"GET", "/bottles/:id/reviews/:reviewID"⟩], Responses := none }

/-- The resource `Review`. -/
def review : ResourceDefinition :=
  { Name := "Review", Description := "", MediaType := "text/plain",
    Responses := none, Actions := [showReview], CanonicalAction := some showReview }

/-- An object media type. -/
def bottleMedia : MediaTypeDefinition :=
  { Identifier := "application/vnd.bottle", TypeName := "BottleMedia", Typ := .object }

/-- A media type of primitive shape. -/
def textMedia : MediaTypeDefinition :=
  { Identifier := "text/plain", TypeName := "Text", Typ := .primitive "String" }

/-- The unversioned API with the resources `Bottle` and `Review`. -/
def api : APIDefinition :=
  { Context := "API", Versions := [⟨"", "API", [bottle, review]⟩],
    MediaTypes := [textMedia, bottleMedia], UserTypes := [] }

/-- Surroundings in which every call succeeds; the output directory is `gen/app`. -/
def env : Env :=
  { OutputDir := "gen", TargetPackage := "app", Design := api, Goify := goify, Args := [],
    parse := none, io := fun _ => none }

/-- A state before generation: `gen/app` holds a file of an earlier run. -/
def before : St :=
  { fs := ["gen", "gen/app", "gen/app/old.go"], heap := fun _ => ∅, log := [], genfiles := [] }

/-- A resource whose canonical route holds a `%v` of its own before its capture. -/
def percent : ResourceDefinition :=
  { Name := "Percent", Description := "", MediaType := "text/plain", Responses := none,
    Actions := [⟨"show", some "Percent", [⟨"GET", "/a%v/:id"⟩], none⟩],
    CanonicalAction := some ⟨"show", some "Percent", [⟨"GET", "/a%v/:id"⟩], none⟩ }

/-- An API without resources that declares the version `.` next to the unnamed
version. -/
def dotted : APIDefinition :=
  { Context := "API", Versions := [⟨"", "API", []⟩, ⟨".", "API", []⟩],
    MediaTypes := [], UserTypes := [] }

/-- Surroundings in which formatting the hrefs file fails and every other call
succeeds. -/
def failing : Env :=
  { env with io := fun c =>
      match c with
      | .FormatCode "gen/app/hrefs.go" => some "format error"
      | _ => none }

/-- Surroundings in which the writer of the contexts file cannot be built and every other
call succeeds. -/
def noContexts : Env :=
  { env with io := fun c =>
      match c with
      | .NewWriter "gen/app/contexts.go" => some "cannot open file"
      | _ => none }

/-- Surroundings in which the writer of the media types file cannot be built and every
other call succeeds. -/
def noMediaTypes : Env :=
  { env with io := fun c =>
      match c with
      | .NewWriter "gen/app/media_types.go" => some "cannot open file"
      | _ => none }

/-- A resource whose map of responses holds `OK`, with the actions `create`, which
declares the response `Created`, and `show`, which declares none. -/
def account : ResourceDefinition :=
  { Name := "Account", Description := "", MediaType := "text/plain", Responses := some 0,
    Actions := [⟨"create", some "Account", [⟨"POST", "/accounts"⟩], some 1⟩,
      ⟨"show", some "Account", [⟨"GET", "/accounts/:id"⟩], none⟩],
    CanonicalAction := none }

/-- The maps of the responses of `account`: `OK` at address 0 for the resource and
`Created` at address 1 for the action `create`. -/
def accountHeap : Heap := fun a =>
  if a = 0 then AList.insert "OK" ⟨"OK", 200⟩ ∅
  else if a = 1 then AList.insert "Created" ⟨"Created", 201⟩ ∅
  else ∅

/-- A state before the contexts of `account` are generated. -/
def accountBefore : St :=
  { fs := ["gen", "gen/app"], heap := accountHeap, log := [], genfiles := ["gen/app"] }

end Sample

end Genapp

/-! ## Properties -/

/-! ### the versioned mux -/

namespace DefaultVersionMux

/-- `GetRequestMux` in terms of the version indicator of the request. -/
theorem GetRequestMux_unfold (m : DefaultVersionMux) (req : Request) :
    m.GetRequestMux req =
      (if versionIndicator req = "" then
        (if m.defaultMux = none then
          (none, some "no version defined in request and no default mux")
         else (m.defaultMux, none))
       else
        (match m.muxes with
         | none => (none, some ("no mux registered with version " ++ dquote ++
             versionIndicator req ++ dquote))
         | some t =>
           match t.lookup (versionIndicator req) with
           | none => (none, some ("no mux registered with version " ++ dquote ++
               versionIndicator req ++ dquote))
           | some mux => (mux, none))) := by
  have hvi : versionIndicator req =
      (if req.headerGet "X-API-Version" = "" then req.queryGet "api_version"
       else req.headerGet "X-API-Version") := by
    unfold versionIndicator
    by_cases hh : req.headerGet "X-API-Version" = "" <;> simp [hh]
  rw [hvi]
  rfl

/-- C10: `GetRequestMux` selects by the version indicator `v` (header first, query
second). For `v` non-empty it returns, without error, the mux the map `muxes` holds for
`v`, which is the mux last registered for `v` with `SetVersionMux`, and it returns the
error that names `v` when the map holds none for `v` or is nil. For `v` empty it returns
the default mux, which is the one set with `SetDefaultMux`, or the error of the missing
default when none was set. A non-empty header value is the indicator whatever the query
says, and the query value is the indicator when the header value is empty. -/
theorem GetRequestMux_selects (m : DefaultVersionMux) (req : Request) :
    (∀ t mux, versionIndicator req ≠ "" → m.muxes = some t →
        t.lookup (versionIndicator req) = some mux → m.GetRequestMux req = (mux, none)) ∧
    (∀ t, versionIndicator req ≠ "" → m.muxes = some t → versionIndicator req ∉ t →
        m.GetRequestMux req = (none, some ("no mux registered with version " ++ dquote ++
          versionIndicator req ++ dquote))) ∧
    (versionIndicator req ≠ "" → m.muxes = none →
        m.GetRequestMux req = (none, some ("no mux registered with version " ++ dquote ++
          versionIndicator req ++ dquote))) ∧
    (versionIndicator req = "" → m.defaultMux ≠ none →
        m.GetRequestMux req = (m.defaultMux, none)) ∧
    (versionIndicator req = "" → m.defaultMux = none →
        m.GetRequestMux req = (none, some "no version defined in request and no default mux")) ∧
    (req.headerGet "X-API-Version" ≠ "" →
        versionIndicator req = req.headerGet "X-API-Version" ∧
        ∀ q, m.GetRequestMux { req with queryGet := q } = m.GetRequestMux req) ∧
    (req.headerGet "X-API-Version" = "" →
        versionIndicator req = req.queryGet "api_version") ∧
    (∀ m1 mux, versionIndicator req ≠ "" →
        m.SetVersionMux (versionIndicator req) mux = some m1 →
        m1.GetRequestMux req = (mux, none)) ∧
    (∀ m1 other mux, versionIndicator req ≠ "" → other ≠ versionIndicator req →
        m.SetVersionMux other mux = some m1 → m1.GetRequestMux req = m.GetRequestMux req) ∧
    (∀ mux, versionIndicator req = "" → mux ≠ none →
        (m.SetDefaultMux mux).GetRequestMux req = (mux, none)) := by
  have hget : ∀ m1 : DefaultVersionMux, versionIndicator req ≠ "" →
      m1.GetRequestMux req =
        (match m1.muxes with
         | none => (none, some ("no mux registered with version " ++ dquote ++
             versionIndicator req ++ dquote))
         | some t =>
           match t.lookup (versionIndicator req) with
           | none => (none, some ("no mux registered with version " ++ dquote ++
               versionIndicator req ++ dquote))
           | some mux => (mux, none)) := by
    intro m1 hv
    rw [GetRequestMux_unfold, if_neg hv]
  have hdef : ∀ m1 : DefaultVersionMux, versionIndicator req = "" →
      m1.GetRequestMux req =
        (if m1.defaultMux = none then
          (none, some "no version defined in request and no default mux")
         else (m1.defaultMux, none)) := by
    intro m1 hv
    rw [GetRequestMux_unfold, if_pos hv]
  refine ⟨?_, ?_, ?_, ?_, ?_, ?_, ?_, ?_, ?_, ?_⟩
  · intro t mux hv ht hl
    rw [hget m hv, ht]
    simp only [hl]
  · intro t hv ht hl
    rw [hget m hv, ht]
    simp only [AList.lookup_eq_none.mpr hl]
  · intro hv ht
    rw [hget m hv, ht]
  · intro hv hd
    rw [hdef m hv, if_neg hd]
  · intro hv hd
    rw [hdef m hv, if_pos hd]
  · intro hh
    have hsame : ∀ q, versionIndicator { req with queryGet := q } = versionIndicator req := by
      intro q
      unfold versionIndicator
      simp [hh]
    refine ⟨by unfold versionIndicator; simp [hh], ?_⟩
    intro q
    rw [GetRequestMux_unfold, GetRequestMux_unfold, hsame]
  · intro hh
    unfold versionIndicator
    simp [hh]
  · intro m1 mux hv hset
    unfold SetVersionMux at hset
    cases ht : m.muxes with
    | none => simp [ht] at hset
    | some t =>
      simp only [ht, Option.some.injEq] at hset
      subst hset
      rw [hget _ hv]
      simp only [AList.lookup_insert]
  · intro m1 other mux hv hne hset
    unfold SetVersionMux at hset
    cases ht : m.muxes with
    | none => simp [ht] at hset
    | some t =>
      simp only [ht, Option.some.injEq] at hset
      subst hset
      rw [hget _ hv, hget m hv, ht]
      simp only [AList.lookup_insert_ne (Ne.symm hne)]
  · intro mux hv hmux
    rw [hdef _ hv]
    simp [SetDefaultMux, hmux]

/-- Witness of C10 on a mux with the versions `1` and `2` registered: the header value
`2` selects the mux of `2` although the query says `1`; without the header the query
value `1` selects the mux of `1`; the version `3`, which is not registered, gives the
error that names it; a request without version gets the default mux; and a mux
registered for `3` is then the one returned. -/
theorem GetRequestMux_selects_witness :
    MuxSample.mux.GetRequestMux (MuxSample.request "2" "1") = (some 8, none) ∧
    MuxSample.mux.GetRequestMux (MuxSample.request "" "1") = (some 7, none) ∧
    MuxSample.mux.GetRequestMux (MuxSample.request "3" "1") =
      (none, some ("no mux registered with version " ++ dquote ++ "3" ++ dquote)) ∧
    MuxSample.mux.GetRequestMux (MuxSample.request "" "") = (some 0, none) ∧
    (MuxSample.mux.SetVersionMux "3" (some 9)).map
      (fun m1 => m1.GetRequestMux (MuxSample.request "3" "1")) = some (some 9, none) :=
  ⟨(GetRequestMux_selects MuxSample.mux (MuxSample.request "2" "1")).1
      (AList.insert "2" (some 8) (AList.insert "1" (some 7) ∅)) (some 8)
      (by decide) rfl (by decide),
    by decide, by decide, by decide, by decide⟩

end DefaultVersionMux

/-! ### wildcard captures -/

namespace Design
open Filepath

/-- A path always has a first element. -/
theorem splitSlash_exists (cs : List Char) : ∃ seg rest, splitSlash cs = seg :: rest := by
  induction cs with
  | nil => exact ⟨[], [], rfl⟩
  | cons c cs ih =>
    obtain ⟨seg, rest, h⟩ := ih
    by_cases hc : c = '/'
    · exact ⟨[], seg :: rest, by simp [splitSlash, hc, h]⟩
    · exact ⟨c :: seg, rest, by simp [splitSlash, hc, h]⟩

/-- The scan that replaces the wildcard captures, started outside a capture, gives the
first element of the path followed by the substituted elements; started inside a capture
it drops the first element. -/
theorem replaceWildcards_split :
    ∀ (cs first : List Char) (rest : List (List Char)), splitSlash cs = first :: rest →
      replaceWildcards ['/', '%', 'v'] false cs = first ++ substituteElems rest ∧
      replaceWildcards ['/', '%', 'v'] true cs = substituteElems rest := by
  intro cs
  induction cs with
  | nil =>
    intro first rest h
    simp [splitSlash] at h
    obtain ⟨rfl, rfl⟩ := h
    simp [replaceWildcards, substituteElems]
  | cons c cs ih =>
    intro first rest h
    obtain ⟨seg, rest1, hsplit⟩ := splitSlash_exists cs
    obtain ⟨ihA, ihB⟩ := ih seg rest1 hsplit
    by_cases hc : c = '/'
    · subst hc
      simp [splitSlash, hsplit] at h
      obtain ⟨rfl, rfl⟩ := h
      rcases cs with _ | ⟨x, _ | ⟨n, tl⟩⟩
      · simp [splitSlash] at hsplit
        obtain ⟨rfl, rfl⟩ := hsplit
        simp [replaceWildcards, substituteElems, captureName]
      · by_cases hx : x = '/'
        · subst hx
          simp [splitSlash] at hsplit
          obtain ⟨rfl, rfl⟩ := hsplit
          simp [replaceWildcards, substituteElems, captureName]
        · simp [splitSlash, hx] at hsplit
          obtain ⟨rfl, rfl⟩ := hsplit
          simp [replaceWildcards, hx, substituteElems, captureName]
      · have hrw : ∀ b, replaceWildcards ['/', '%', 'v'] b ('/' :: x :: n :: tl) =
            if x = ':' ∧ n ≠ '/' then
              ['/', '%', 'v'] ++ replaceWildcards ['/', '%', 'v'] true (x :: n :: tl)
            else '/' :: replaceWildcards ['/', '%', 'v'] false (x :: n :: tl) := by
          intro b
          by_cases hx : x = ':' <;> by_cases hn : n = '/' <;>
            simp [replaceWildcards, hx, hn]
        have hseg : (captureName seg).isSome = decide (x = ':' ∧ n ≠ '/') := by
          obtain ⟨s2, r2, h2⟩ := splitSlash_exists tl
          by_cases hx : x = '/' <;> by_cases hn : n = '/' <;>
            simp [splitSlash, hx, hn, h2] at hsplit <;> obtain ⟨rfl, rfl⟩ := hsplit <;>
            simp [captureName, hx, hn]
          split <;> simp_all
        have hsub : substituteElems (seg :: rest1) =
            (if x = ':' ∧ n ≠ '/' then ['/', '%', 'v'] else '/' :: seg) ++
              substituteElems rest1 := by
          cases hcn : captureName seg with
          | none =>
            have hno : ¬(x = ':' ∧ n ≠ '/') := by
              intro hyes
              simp [hcn, hyes] at hseg
            simp [substituteElems, hcn, if_neg hno]
          | some v =>
            have hyes : x = ':' ∧ n ≠ '/' := by
              by_contra hno
              simp [hcn, hno] at hseg
            simp [substituteElems, hcn, if_pos hyes]
        rw [hrw, hrw, hsub, ihA, ihB]
        split <;> simp
    · simp [splitSlash, hsplit, hc] at h
      obtain ⟨rfl, rfl⟩ := h
      simp [replaceWildcards, hc, ihA, ihB]

/-- The first element of what follows a slash is a capture exactly when what follows
starts with a colon and a character other than a slash. -/
theorem captureName_first (x n : Char) (tl seg : List Char) (rest1 : List (List Char))
    (hsplit : splitSlash (x :: n :: tl) = seg :: rest1) :
    (x = ':' ∧ n ≠ '/' → ∃ t, seg = ':' :: n :: t) ∧
    (¬(x = ':' ∧ n ≠ '/') → captureName seg = none) := by
  obtain ⟨s2, r2, h2⟩ := splitSlash_exists tl
  by_cases hx : x = '/' <;> by_cases hn : n = '/' <;>
    simp [splitSlash, hx, hn, h2] at hsplit <;> obtain ⟨rfl, rfl⟩ := hsplit
  · simp [captureName, hx, hn]
  · simp [captureName, hx, hn]
  · constructor
    · rintro ⟨-, h⟩
      exact absurd hn h
    · intro _
      simp [captureName]
  · constructor
    · rintro ⟨rfl, -⟩
      exact ⟨s2, rfl⟩
    · intro hno
      have hx2 : x ≠ ':' := fun h => hno ⟨h, hn⟩
      unfold captureName
      split
      · rename_i heq
        simp only [List.cons.injEq] at heq
        exact absurd heq.1 hx2
      · rfl

/-- The first element of a path is a capture exactly when the path starts with a colon
and a character other than a slash. -/
theorem captureName_head (cs seg : List Char) (rest1 : List (List Char))
    (hsplit : splitSlash cs = seg :: rest1) :
    (∀ n tl, cs = ':' :: n :: tl → n ≠ '/' → ∃ t, seg = ':' :: n :: t) ∧
    (¬(∃ n tl, cs = ':' :: n :: tl ∧ n ≠ '/') → captureName seg = none) := by
  rcases cs with _ | ⟨x, _ | ⟨n, tl⟩⟩
  · simp [splitSlash] at hsplit
    obtain ⟨rfl, rfl⟩ := hsplit
    exact ⟨fun _ _ h => by simp at h, fun _ => rfl⟩
  · refine ⟨fun _ _ h => by simp at h, fun _ => ?_⟩
    by_cases hx : x = '/'
    · simp [splitSlash, hx] at hsplit
      obtain ⟨rfl, rfl⟩ := hsplit
      rfl
    · simp [splitSlash, hx] at hsplit
      obtain ⟨rfl, rfl⟩ := hsplit
      simp [captureName]
  · obtain ⟨hyes, hno⟩ := captureName_first x n tl seg rest1 hsplit
    constructor
    · intro n2 tl2 heq hn
      simp only [List.cons.injEq] at heq
      obtain ⟨rfl, rfl, rfl⟩ := heq
      exact hyes ⟨rfl, hn⟩
    · intro hnot
      apply hno
      rintro ⟨rfl, hn⟩
      exact hnot ⟨n, tl, rfl, hn⟩

/-- One step of the scan that collects the capture names. -/
theorem extractWildcards_cons (st : Scan) (c : Char) (cs : List Char) :
    extractWildcards st (c :: cs) =
      (if c = '/' then
        st.flush ++
          (match cs with
           | ':' :: n :: _ =>
             if n = '/' then extractWildcards .outside cs else extractWildcards .colon cs
           | _ => extractWildcards .outside cs)
       else
        match st with
        | .outside => extractWildcards .outside cs
        | .colon => extractWildcards (.name []) cs
        | .name acc => extractWildcards (.name (acc ++ [c])) cs) := by
  rw [extractWildcards.eq_def]

/-- The scan at a slash that starts a capture. -/
theorem extractWildcards_capture (st : Scan) (n : Char) (tl : List Char) (hn : n ≠ '/') :
    extractWildcards st ('/' :: ':' :: n :: tl) =
      st.flush ++ extractWildcards .colon (':' :: n :: tl) := by
  rw [extractWildcards_cons, if_pos rfl]
  simp only [if_neg hn]

/-- The scan at a slash that starts no capture. -/
theorem extractWildcards_plain (st : Scan) (cs : List Char)
    (h : ¬(∃ n tl, cs = ':' :: n :: tl ∧ n ≠ '/')) :
    extractWildcards st ('/' :: cs) = st.flush ++ extractWildcards .outside cs := by
  rw [extractWildcards_cons, if_pos rfl]
  split
  · rename_i n tl
    have hn : n = '/' := by
      by_contra hn
      exact h ⟨n, tl, rfl, hn⟩
    simp only [hn, if_true]
  · rfl

/-- The scan that collects the capture names, started outside a capture, gives the names
of the elements after the first that are captures; started inside a name it first ends
that name with the first element; started on a colon it first gives the rest of the first
element. -/
theorem extractWildcards_split :
    ∀ (cs first : List Char) (rest : List (List Char)), splitSlash cs = first :: rest →
      extractWildcards .outside cs = rest.filterMap captureName ∧
      (∀ acc, extractWildcards (.name acc) cs =
        String.mk (acc ++ first) :: rest.filterMap captureName) ∧
      extractWildcards .colon cs =
        (match first with
         | [] => []
         | _ :: t => [String.mk t]) ++ rest.filterMap captureName := by
  intro cs
  induction cs with
  | nil =>
    intro first rest h
    simp [splitSlash] at h
    obtain ⟨rfl, rfl⟩ := h
    simp [extractWildcards, Scan.flush]
  | cons c cs ih =>
    intro first rest h
    obtain ⟨seg, rest1, hsplit⟩ := splitSlash_exists cs
    obtain ⟨ihO, ihN, ihC⟩ := ih seg rest1 hsplit
    obtain ⟨hyes, hno⟩ := captureName_head cs seg rest1 hsplit
    by_cases hc : c = '/'
    · subst hc
      simp [splitSlash, hsplit] at h
      obtain ⟨rfl, rfl⟩ := h
      have hnext : ∀ st, extractWildcards st ('/' :: cs) =
          st.flush ++ (seg :: rest1).filterMap captureName := by
        intro st
        by_cases hcap : ∃ n tl, cs = ':' :: n :: tl ∧ n ≠ '/'
        · obtain ⟨n, tl, rfl, hn⟩ := hcap
          obtain ⟨t, rfl⟩ := hyes n tl rfl hn
          rw [extractWildcards_capture st n tl hn, ihC]
          simp [captureName]
        · rw [extractWildcards_plain st cs hcap, ihO, List.filterMap_cons, hno hcap]
      refine ⟨?_, ?_, ?_⟩
      · rw [hnext]
        rfl
      · intro acc
        rw [hnext]
        simp [Scan.flush]
      · rw [hnext]
        rfl
    · simp [splitSlash, hsplit, hc] at h
      obtain ⟨rfl, rfl⟩ := h
      refine ⟨?_, ?_, ?_⟩
      · rw [extractWildcards_cons, if_neg hc]
        exact ihO
      · intro acc
        rw [extractWildcards_cons, if_neg hc]
        simp only []
        rw [ihN]
        simp
      · rw [extractWildcards_cons, if_neg hc]
        simp only []
        rw [ihN]
        simp

/-- The parameters of a route are the capture names of its path. -/
theorem Params_eq_captureNames (rt : RouteDefinition) :
    rt.Params = captureNames rt.Path := by
  obtain ⟨first, rest, hsplit⟩ := splitSlash_exists rt.Path.toList
  unfold RouteDefinition.Params captureNames
  rw [(extractWildcards_split _ first rest hsplit).1, hsplit]
  rfl

/-- Every character of an element of a path is a character of the path. -/
theorem mem_of_mem_splitSlash (x : Char) :
    ∀ (cs seg : List Char), seg ∈ splitSlash cs → x ∈ seg → x ∈ cs := by
  intro cs
  induction cs with
  | nil =>
    intro seg hseg hx
    simp [splitSlash] at hseg
    subst hseg
    simp at hx
  | cons c cs ih =>
    intro seg hseg hx
    obtain ⟨s1, r1, h1⟩ := splitSlash_exists cs
    by_cases hc : c = '/'
    · simp [splitSlash, hc] at hseg
      rcases hseg with rfl | hseg
      · simp at hx
      · exact List.mem_cons_of_mem _ (ih seg hseg hx)
    · simp [splitSlash, hc, h1] at hseg
      rcases hseg with rfl | hseg
      · rcases List.mem_cons.mp hx with rfl | hx
        · exact List.mem_cons_self _ _
        · exact List.mem_cons_of_mem _ (ih s1 (by simp [h1]) hx)
      · exact List.mem_cons_of_mem _ (ih seg (by simp [h1, hseg]) hx)

end Design

/-! ### cleaned paths -/

namespace Filepath

/-- The elements of a path hold no slash. -/
theorem splitSlash_noSlash : ∀ (cs seg : List Char), seg ∈ splitSlash cs → '/' ∉ seg := by
  intro cs
  induction cs with
  | nil =>
    intro seg h
    simp [splitSlash] at h
    subst h
    simp
  | cons c cs ih =>
    intro seg h
    obtain ⟨s1, r1, h1⟩ := Design.splitSlash_exists cs
    by_cases hc : c = '/'
    · simp [splitSlash, hc] at h
      rcases h with rfl | h
      · simp
      · exact ih seg h
    · simp [splitSlash, hc, h1] at h
      rcases h with rfl | h
      · have := ih s1 (by simp [h1])
        intro hmem
        rcases List.mem_cons.mp hmem with heq | hmem
        · exact hc heq.symm
        · exact this hmem
      · exact ih seg (by simp [h1, h])

/-- A step of the cleaning keeps the stack clean. -/
theorem cleanStep_cleanStack (rooted : Bool) (stack : List (List Char)) (seg : List Char)
    (hs : CleanStack rooted stack) (hseg : '/' ∉ seg) :
    CleanStack rooted (cleanStep rooted stack seg) := by
  unfold cleanStep
  split
  · exact hs
  · rename_i hkeep
    push_neg at hkeep
    split
    · rename_i hdots
      cases stack with
      | nil =>
        cases rooted with
        | true => simp [CleanStack]
        | false => simp [CleanStack, Kept, hdots]
      | cons top rest =>
        simp only []
        split
        · rename_i htop
          obtain ⟨hk, hd, hr⟩ := hs
          refine ⟨⟨hkeep.1, hkeep.2, hseg⟩, fun _ => ⟨(hd htop).1, ?_⟩, hk, hd, hr⟩
          intro x hx
          rcases List.mem_cons.mp hx with rfl | hx
          · exact htop
          · exact (hd htop).2 x hx
        · exact hs.2.2
    · rename_i hnd
      exact ⟨⟨hkeep.1, hkeep.2, hseg⟩, fun h => absurd h hnd, hs⟩

/-- The cleaning keeps the stack clean. -/
theorem foldl_cleanStack (rooted : Bool) :
    ∀ (segs : List (List Char)) (stack : List (List Char)),
      CleanStack rooted stack → (∀ seg ∈ segs, '/' ∉ seg) →
      CleanStack rooted (segs.foldl (cleanStep rooted) stack) := by
  intro segs
  induction segs with
  | nil => intro stack hs _; exact hs
  | cons seg segs ih =>
    intro stack hs hno
    exact ih _ (cleanStep_cleanStack rooted stack seg hs (hno seg (List.mem_cons_self _ _)))
      (fun x hx => hno x (List.mem_cons_of_mem _ hx))


/-- Splitting at a slash: the elements before it, then the elements after it. -/
theorem splitSlash_append (a b : List Char) :
    splitSlash (a ++ '/' :: b) = splitSlash a ++ splitSlash b := by
  induction a with
  | nil => simp [splitSlash]
  | cons c a ih =>
    obtain ⟨s1, r1, h1⟩ := Design.splitSlash_exists a
    by_cases hc : c = '/'
    · simp [splitSlash, hc, ih]
    · simp [splitSlash, hc, ih, h1]

/-- Text without a slash is a single element. -/
theorem splitSlash_of_noSlash : ∀ (f : List Char), '/' ∉ f → splitSlash f = [f] := by
  intro f
  induction f with
  | nil => intro _; rfl
  | cons c f ih =>
    intro h
    have hc : c ≠ '/' := fun hc => h (hc ▸ List.mem_cons_self _ _)
    have hf : '/' ∉ f := fun hf => h (List.mem_cons_of_mem _ hf)
    simp [splitSlash, hc, ih hf]

/-- Joining elements without slashes with slashes and splitting again gives them back. -/
theorem splitSlash_intercalate :
    ∀ (elems : List (List Char)), elems ≠ [] → (∀ e ∈ elems, '/' ∉ e) →
      splitSlash (List.intercalate ['/'] elems) = elems := by
  intro elems
  induction elems with
  | nil => intro h; exact absurd rfl h
  | cons e elems ih =>
    intro _ hno
    cases elems with
    | nil =>
      simp [List.intercalate]
      exact splitSlash_of_noSlash e (hno e (List.mem_cons_self _ _))
    | cons e2 elems =>
      have hrest := ih (by simp) (fun x hx => hno x (List.mem_cons_of_mem _ hx))
      have hcat : List.intercalate ['/'] (e :: e2 :: elems) =
          e ++ '/' :: List.intercalate ['/'] (e2 :: elems) := by
        simp [List.intercalate]
      rw [hcat, splitSlash_append, hrest, splitSlash_of_noSlash e (hno e (List.mem_cons_self _ _))]
      rfl

/-- The lower part of a clean stack is clean. -/
theorem cleanStack_suffix (rooted : Bool) :
    ∀ (a b : List (List Char)), CleanStack rooted (a ++ b) → CleanStack rooted b := by
  intro a
  induction a with
  | nil => intro b h; exact h
  | cons x a ih => intro b h; exact ih b h.2.2

/-- Cleaning elements that are already clean pushes each of them. -/
theorem foldl_cleanStep_clean (rooted : Bool) :
    ∀ (elems stack : List (List Char)), CleanStack rooted (elems.reverse ++ stack) →
      elems.foldl (cleanStep rooted) stack = elems.reverse ++ stack := by
  intro elems
  induction elems with
  | nil => intro stack _; rfl
  | cons x elems ih =>
    intro stack h
    have h2 : CleanStack rooted (elems.reverse ++ (x :: stack)) := by
      simpa using h
    have hx := cleanStack_suffix rooted _ _ h2
    have hstep : cleanStep rooted stack x = x :: stack := by
      obtain ⟨⟨hne, hnd, -⟩, hdots, -⟩ := hx
      unfold cleanStep
      rw [if_neg (by simp [hne, hnd])]
      split
      · rename_i hxd
        obtain ⟨hr, hall⟩ := hdots hxd
        cases stack with
        | nil => simp [hr]
        | cons top rest => simp [hall top (List.mem_cons_self _ _)]
      · rfl
    rw [List.foldl_cons, hstep, ih _ h2]
    simp


/-- Every element of a clean stack is kept. -/
theorem cleanStack_kept (rooted : Bool) :
    ∀ (stack : List (List Char)), CleanStack rooted stack → ∀ x ∈ stack, Kept x := by
  intro stack
  induction stack with
  | nil => intro _ x hx; simp at hx
  | cons top rest ih =>
    intro h x hx
    rcases List.mem_cons.mp hx with rfl | hx
    · exact h.1
    · exact ih h.2.2 x hx

/-- The elements of a cleaned path form a clean stack. -/
theorem cleanElems_cleanStack (rooted : Bool) (p : List Char) :
    CleanStack rooted (cleanElems rooted p).reverse := by
  unfold cleanElems
  rw [List.reverse_reverse]
  exact foldl_cleanStack rooted _ [] trivial (splitSlash_noSlash p)

/-- Cleaning the elements of a cleaned path again changes nothing. -/
theorem foldl_cleanElems (rooted : Bool) (p : List Char) :
    ((cleanElems rooted p).foldl (cleanStep rooted) []).reverse = cleanElems rooted p := by
  rw [foldl_cleanStep_clean rooted _ [] (by simpa using cleanElems_cleanStack rooted p)]
  simp

/-- The elements of a cleaned path hold no slash. -/
theorem cleanElems_noSlash (rooted : Bool) (p : List Char) :
    ∀ e ∈ cleanElems rooted p, '/' ∉ e := by
  intro e he
  have := cleanStack_kept rooted _ (cleanElems_cleanStack rooted p) e (by simpa using he)
  exact this.2.2

/-- A leading slash adds no element. -/
theorem cleanElems_slash_cons (rooted : Bool) (p : List Char) :
    cleanElems rooted ('/' :: p) = cleanElems rooted p := by
  have hsplit : splitSlash ('/' :: p) = [] :: splitSlash p := by simp [splitSlash]
  have hstep : cleanStep rooted [] [] = [] := by simp [cleanStep]
  unfold cleanElems
  rw [hsplit, List.foldl_cons, hstep]

/-- The cleaned elements, joined with slashes, have themselves as cleaned elements. -/
theorem cleanElems_intercalate (rooted : Bool) (p : List Char)
    (hE : cleanElems rooted p ≠ []) :
    cleanElems rooted (List.intercalate ['/'] (cleanElems rooted p)) = cleanElems rooted p := by
  have hsplit := splitSlash_intercalate _ hE (cleanElems_noSlash rooted p)
  have hfold := foldl_cleanElems rooted p
  revert hsplit hfold
  generalize cleanElems rooted p = E
  intro hsplit hfold
  unfold cleanElems
  rw [hsplit, hfold]

/-- Cleaning a rooted path gives a rooted path with the same elements. -/
theorem cleanChars_rooted (p : List Char) (h : p.head? = some '/') :
    (cleanChars p).head? = some '/' ∧ cleanElems true (cleanChars p) = cleanElems true p := by
  have hc : cleanChars p = '/' :: List.intercalate ['/'] (cleanElems true p) := by
    simp [cleanChars, h]
  rw [hc, cleanElems_slash_cons]
  refine ⟨rfl, ?_⟩
  by_cases hE : cleanElems true p = []
  · rw [hE]
    decide
  · exact cleanElems_intercalate true p hE

/-- Cleaning a relative path gives a relative path with the same elements. -/
theorem cleanChars_relative (p : List Char) (h : p.head? ≠ some '/') :
    (cleanChars p).head? ≠ some '/' ∧
      cleanElems false (cleanChars p) = cleanElems false p := by
  by_cases hE : cleanElems false p = []
  · have hc : cleanChars p = ['.'] := by simp [cleanChars, h, hE]
    rw [hc, hE]
    exact ⟨by decide, by decide⟩
  · have hc : cleanChars p = List.intercalate ['/'] (cleanElems false p) := by
      simp [cleanChars, h, hE]
    rw [hc]
    refine ⟨?_, cleanElems_intercalate false p hE⟩
    have hkept := cleanStack_kept false _ (cleanElems_cleanStack false p)
    revert hE hkept
    generalize cleanElems false p = E
    intro hE hkept
    cases E with
    | nil => exact absurd rfl hE
    | cons e E =>
      obtain ⟨hne, -, hslash⟩ := hkept e (by simp)
      cases e with
      | nil => exact absurd rfl hne
      | cons c e =>
        have hc : c ≠ '/' := fun hc => hslash (hc ▸ List.mem_cons_self _ _)
        cases E with
        | nil => simpa [List.intercalate] using hc
        | cons e2 E => simpa [List.intercalate] using hc

/-- A cleaned path is never empty. -/
theorem cleanChars_ne_nil (p : List Char) : cleanChars p ≠ [] := by
  by_cases h : p.head? = some '/'
  · intro hnil
    have := (cleanChars_rooted p h).1
    rw [hnil] at this
    simp at this
  · by_cases hE : cleanElems false p = []
    · simp [cleanChars, h, hE]
    · have hc : cleanChars p = List.intercalate ['/'] (cleanElems false p) := by
        simp [cleanChars, h, hE]
      intro hnil
      have hsplit := splitSlash_intercalate _ hE (cleanElems_noSlash false p)
      rw [← hc, hnil] at hsplit
      have hkept := cleanStack_kept false _ (cleanElems_cleanStack false p) [] (by
        rw [← hsplit]; simp [splitSlash])
      exact hkept.1 rfl


/-- A cleaned path denotes what the path it was cleaned from denotes. -/
theorem elemsOf_clean (x : List Char) :
    elemsOf (String.mk (cleanChars x)) =
      (decide (x.head? = some '/'), cleanElems (decide (x.head? = some '/')) x) := by
  unfold elemsOf
  show (decide ((cleanChars x).head? = some '/'),
      cleanElems (decide ((cleanChars x).head? = some '/')) (cleanChars x)) = _
  by_cases h : x.head? = some '/'
  · obtain ⟨h1, h2⟩ := cleanChars_rooted x h
    simp [h, h1, h2]
  · obtain ⟨h1, h2⟩ := cleanChars_relative x h
    simp [h, h1, h2]

/-- Appending a slash and a plain name adds the name as last element. -/
theorem cleanElems_append_name (rooted : Bool) (d f : List Char)
    (hf : f ≠ [] ∧ f ≠ ['.'] ∧ f ≠ ['.', '.'] ∧ '/' ∉ f) :
    cleanElems rooted (d ++ '/' :: f) = cleanElems rooted d ++ [f] := by
  unfold cleanElems
  rw [splitSlash_append, splitSlash_of_noSlash f hf.2.2.2, List.foldl_append]
  simp [cleanStep, hf.1, hf.2.1, hf.2.2.1]

/-- Appending a slash adds no element. -/
theorem cleanElems_append_slash (rooted : Bool) (d : List Char) :
    cleanElems rooted (d ++ ['/']) = cleanElems rooted d := by
  unfold cleanElems
  rw [splitSlash_append, List.foldl_append]
  simp [splitSlash, cleanStep]

/-- Joining a non-empty directory and a name cleans the two with a slash between them. -/
theorem Join_pair (d v : String) (hd : d ≠ "") :
    Join [d, v] = String.mk (cleanChars (d.toList ++ '/' :: v.toList)) := by
  simp [Join, List.dropWhile, hd, Clean, List.intercalate]

/-- Joining a non-empty directory and a name never gives the empty path. -/
theorem Join_pair_ne (d v : String) (hd : d ≠ "") : Join [d, v] ≠ "" := by
  rw [Join_pair d v hd]
  intro h
  have := congrArg String.toList h
  exact cleanChars_ne_nil _ this

/-- Joining a non-empty directory and a name that is empty or plain adds the elements of the name to those of the directory. -/
theorem elemsOf_Join (d v : String) (hd : d ≠ "") (hv : v = "" ∨ PlainName v = true) :
    elemsOf (Join [d, v]) = ((elemsOf d).1, (elemsOf d).2 ++ nameElems v) := by
  have hne : d.toList ≠ [] := by
    intro h
    apply hd
    cases d with
    | mk data =>
      simp only [String.toList] at h
      subst h
      rfl
  have hhead : ∀ t, (d.toList ++ t).head? = d.toList.head? := by
    intro t
    cases hdl : d.toList with
    | nil => exact absurd hdl hne
    | cons c cs => rfl
  rw [Join_pair d v hd, elemsOf_clean, hhead]
  unfold elemsOf nameElems
  rcases hv with rfl | hv
  · simp [cleanElems_append_slash]
  · have hv := of_decide_eq_true hv
    have hvne : v ≠ "" := by
      intro h
      subst h
      exact hv.1 rfl
    rw [cleanElems_append_name _ _ _ hv, if_neg hvne]


end Filepath

/-! ### the generator -/

namespace Genapp
open Design Filepath

/-- Assigning the entries of a map with unique keys one after the other: a key of the
entries ends with its value there, any other key keeps its value. -/
theorem lookup_foldl_insert (k : String) :
    ∀ (es : List (Sigma (fun _ : String => ResponseDefinition))) (m : ResponseMap),
      es.NodupKeys →
      (es.foldl (fun m e => m.insert e.1 e.2) m).lookup k =
        (match es.dlookup k with
         | some v => some v
         | none => m.lookup k) := by
  intro es
  induction es with
  | nil => intro m _; simp
  | cons e es ih =>
    intro m hnd
    obtain ⟨k1, v1⟩ := e
    rw [List.nodupKeys_cons] at hnd
    rw [List.foldl_cons, ih _ hnd.2]
    by_cases hk : k = k1
    · subst hk
      have hnone : es.dlookup k = none := List.dlookup_eq_none.mpr hnd.1
      simp [hnone]
    · rw [List.dlookup_cons_ne es ⟨k1, v1⟩ hk, AList.lookup_insert_ne hk]

/-- C2: `MergeResponses` is the reference merge: with `l` nil it returns `r`, with `r`
nil it returns `l`, and otherwise it returns `l`, which then maps every key of `r` to
its value in `r` and every other key to its value in `l`, has the union of the two key
sets as key set, and leaves every other map as it was; in particular merging `OK ↦ A`
with `OK ↦ B` gives `OK ↦ B`. -/
theorem MergeResponses_reference (h : Heap) :
    (∀ r, MergeResponses h none r = (r, h)) ∧
    (∀ l, MergeResponses h l none = (l, h)) ∧
    (∀ a b,
      (MergeResponses h (some a) (some b)).1 = some a ∧
      (∀ k, ((MergeResponses h (some a) (some b)).2 a).lookup k =
        (match (h b).lookup k with
         | some v => some v
         | none => (h a).lookup k)) ∧
      (∀ k, k ∈ (MergeResponses h (some a) (some b)).2 a ↔ k ∈ h a ∨ k ∈ h b) ∧
      (∀ k, (deref (MergeResponses h (some a) (some b)).2
          (MergeResponses h (some a) (some b)).1).bind (fun m => m.lookup k) =
        (mergeSpec (deref h (some a)) (deref h (some b))).bind (fun m => m.lookup k)) ∧
      (∀ c, c ≠ a → (MergeResponses h (some a) (some b)).2 c = h c)) ∧
    ((MergeResponses Sample.lawHeap (some 0) (some 1)).2 0).entries = [⟨"OK", Sample.respB⟩] := by
  have key : ∀ a b k, ((MergeResponses h (some a) (some b)).2 a).lookup k =
      (match (h b).lookup k with
       | some v => some v
       | none => (h a).lookup k) := by
    intro a b k
    simp only [MergeResponses, Function.update_same]
    exact lookup_foldl_insert k (h b).entries (h a) (h b).nodupKeys
  refine ⟨fun r => rfl, ?_, ?_, by decide⟩
  · intro l
    cases l <;> rfl
  · intro a b
    refine ⟨rfl, key a b, ?_, ?_, ?_⟩
    · intro k
      rw [← AList.lookup_isSome, ← AList.lookup_isSome, ← AList.lookup_isSome, key a b k]
      cases hb : (h b).lookup k <;> simp
    · intro k
      have := key a b k
      simp only [MergeResponses, Function.update_same, deref, mergeSpec, Option.map_some',
        Option.some_bind] at this ⊢
      rw [this]
      cases hb : (h b).lookup k with
      | none =>
        rw [AList.lookup_union_right (AList.lookup_eq_none.mp hb)]
      | some v =>
        rw [AList.lookup_union_left (AList.lookup_isSome.mp (by simp [hb])), hb]
    · intro c hc
      simp [MergeResponses, Function.update_noteq hc]

/-- Where the two names agree: for an action `a` whose `Parent` is the resource `r`, the
context type name that `generateContexts` computes and puts in the record it gives to the
contexts writer is the same string as the context name that `generateControllers` puts
in the entry of `a`, and both are `Goify(a.Name) ++ Goify(r.Name) ++ "Context"`. -/
theorem contextName_of_parent (env : Env) (r : ResourceDefinition)
    (a : ActionDefinition) (hparent : a.Parent = some r.Name) :
    contextName env a = some (controllerContext env r a) ∧
    controllerContext env r a = env.Goify a.Name true ++ env.Goify r.Name true ++ "Context" ∧
    (∀ ctxFile s, ∃ data view,
      (contextsAction env ctxFile r a s).2.log =
        s.log ++ [(.ExecuteContext ctxFile data view, env.io (.ExecuteContext ctxFile data view))] ∧
      data.Name = controllerContext env r a) ∧
    (∀ data, (controllersAction env r data a).Actions.getLast?.map (fun e => e.Context) =
      some (controllerContext env r a)) := by
  have hname : contextName env a = some (controllerContext env r a) := by
    simp [contextName, controllerContext, hparent]
  refine ⟨hname, rfl, ?_, ?_⟩
  · intro ctxFile s
    simp only [contextsAction, hname, call]
    refine ⟨ContextTemplateData.mk (controllerContext env r a) r.Name a.Name a.Routes
        (MergeResponses s.heap r.Responses a.Responses).1,
      deref (MergeResponses s.heap r.Responses a.Responses).2
        (MergeResponses s.heap r.Responses a.Responses).1, ?_, rfl⟩
    cases env.io _ <;> rfl
  · intro data
    simp [controllersAction]

/-- The fold over the actions of a resource appends one entry for each action. -/
theorem controllersAction_foldl (env : Env) (r : ResourceDefinition) :
    ∀ (as : List ActionDefinition) (data : ControllerTemplateData),
      as.foldl (controllersAction env r) data =
        { data with Actions := data.Actions ++ as.map (fun a =>
            { Name := env.Goify a.Name true
              Routes := a.Routes
              Context := env.Goify a.Name true ++ env.Goify r.Name true ++ "Context" }) } := by
  intro as
  induction as with
  | nil => intro data; simp
  | cons a as ih =>
    intro data
    rw [List.foldl_cons, ih]
    simp [controllersAction, controllerContext]

/-- The fold over the resources appends the groups of the resources that have an
action. -/
theorem controllersResource_foldl (env : Env) (version : APIVersionDefinition) :
    ∀ (rs : List ResourceDefinition) (acc : List ControllerTemplateData),
      rs.foldl (controllersResource env version) acc =
        acc ++ controllersSpec env { version with Resources := rs } := by
  intro rs
  induction rs with
  | nil => intro acc; simp [controllersSpec]
  | cons r rs ih =>
    intro acc
    rw [List.foldl_cons, ih]
    simp only [controllersResource]
    rw [controllersAction_foldl]
    cases hr : r.Actions with
    | nil => simp [controllersSpec, hr]
    | cons a as => simp [controllersSpec, hr]

/-- C7: the data `generateControllers` gives to the controllers writer is, in the order
of the resources, one group for each resource of the version that has an action and none
for a resource without actions, each group holding one entry for each action of its
resource, in the order of the actions, with the routes of that action; and the writer is
executed once, on that data, whenever it could be built. -/
theorem generateControllers_data (env : Env) (verdir : String)
    (version : APIVersionDefinition) (s : St) :
    version.Resources.foldl (controllersResource env version) [] =
      controllersSpec env version ∧
    controllersPassed (generateControllers env verdir version s).2.log =
      controllersPassed s.log ++
        (if env.io (.NewWriter (Filepath.Join [verdir, "controllers.go"])) = none then
          [controllersSpec env version] else []) := by
  refine ⟨controllersResource_foldl env version version.Resources [], ?_⟩
  simp only [generateControllers, NewWriter, call, WriteHeader, FormatCode]
  rw [controllersResource_foldl env version version.Resources []]
  simp only [List.nil_append]
  cases hnew : env.io (.NewWriter (Filepath.Join [verdir, "controllers.go"])) with
  | some e => simp [controllersPassed]
  | none =>
    simp only []
    split <;> rename_i heq <;> simp only [Prod.mk.injEq] at heq <;> obtain ⟨-, rfl⟩ := heq
    · simp [controllersPassed, List.filterMap_append]
    · cases hfmt : env.io (.FormatCode (Filepath.Join [verdir, "controllers.go"])) <;>
        simp [Res.ofError, controllersPassed, List.filterMap_append]

/-- Text without a percent sign holds no placeholder. -/
theorem countPlaceholders_append (a b : List Char) (h : '%' ∉ a) :
    countPlaceholders (a ++ b) = countPlaceholders b := by
  induction a with
  | nil => rfl
  | cons c a ih =>
    have hc : c ≠ '%' := fun hc => h (hc ▸ List.mem_cons_self _ _)
    have ha : '%' ∉ a := fun ha => h (List.mem_cons_of_mem _ ha)
    rw [List.cons_append, countPlaceholders]
    · exact ih ha
    · intro _ hpercent _
      exact hc hpercent

/-- In the substituted elements of a path without a percent sign there is one placeholder
for each capture. -/
theorem countPlaceholders_substituteElems :
    ∀ (elems : List (List Char)), (∀ seg ∈ elems, '%' ∉ seg) →
      countPlaceholders (substituteElems elems) = (elems.filterMap captureName).length := by
  intro elems
  induction elems with
  | nil => intro _; rfl
  | cons seg elems ih =>
    intro h
    have hrest := ih (fun s hs => h s (List.mem_cons_of_mem _ hs))
    have hseg : '%' ∉ seg := h seg (List.mem_cons_self _ _)
    have hcons : substituteElems (seg :: elems) =
        (match captureName seg with
         | some _ => ['/', '%', 'v']
         | none => '/' :: seg) ++ substituteElems elems := by
      simp [substituteElems]
    rw [hcons]
    cases hcn : captureName seg with
    | none =>
      have hno : '%' ∉ '/' :: seg := by
        intro hmem
        rcases List.mem_cons.mp hmem with heq | hmem
        · exact absurd heq (by decide)
        · exact hseg hmem
      simp only [List.filterMap_cons, hcn]
      rw [countPlaceholders_append _ _ hno, hrest]
    | some v =>
      simp only [List.filterMap_cons, hcn, List.length_cons]
      show countPlaceholders ('/' :: '%' :: 'v' :: substituteElems elems) = _
      simp [countPlaceholders, hrest, Nat.add_comm]

/-- A `%v` never starts at the end of one piece of text and ends in the next when the
next piece does not start with `v`. -/
theorem countPlaceholders_add (a b : List Char) (hb : b.head? ≠ some 'v') :
    countPlaceholders (a ++ b) = countPlaceholders a + countPlaceholders b := by
  induction a with
  | nil => simp [countPlaceholders]
  | cons c a ih =>
    have hhead : ∀ t, (a ++ b = 'v' :: t) → ∃ t2, a = 'v' :: t2 := by
      intro t ht
      cases a with
      | nil =>
        simp only [List.nil_append] at ht
        rw [ht] at hb
        exact absurd rfl hb
      | cons x a2 =>
        simp only [List.cons_append, List.cons.injEq] at ht
        exact ⟨a2, by rw [ht.1]⟩
    by_cases hc : c = '%'
    · subst hc
      by_cases hv : ∃ t2, a = 'v' :: t2
      · obtain ⟨t2, rfl⟩ := hv
        have h1 : ∀ t, countPlaceholders ('%' :: 'v' :: t) =
            1 + countPlaceholders ('v' :: t) := fun t => by rw [countPlaceholders]
        rw [List.cons_append, List.cons_append, h1, h1, ← List.cons_append, ih]
        omega
      · have h1 : countPlaceholders ('%' :: a) = countPlaceholders a := by
          rw [countPlaceholders]
          intro t _ ht
          exact hv ⟨t, ht⟩
        have h2 : countPlaceholders ('%' :: (a ++ b)) = countPlaceholders (a ++ b) := by
          rw [countPlaceholders]
          intro t _ ht
          exact hv (hhead t ht)
        rw [List.cons_append, h1, h2, ih]
    · have h1 : countPlaceholders (c :: a) = countPlaceholders a := by
        rw [countPlaceholders]
        intro _ hpercent _
        exact hc hpercent
      have h2 : countPlaceholders (c :: (a ++ b)) = countPlaceholders (a ++ b) := by
        rw [countPlaceholders]
        intro _ hpercent _
        exact hc hpercent
      rw [List.cons_append, h1, h2, ih]

/-- The substituted elements of a path do not start with `v`. -/
theorem substituteElems_head (elems : List (List Char)) :
    (substituteElems elems).head? ≠ some 'v' := by
  cases elems with
  | nil => simp [substituteElems]
  | cons seg elems =>
    cases hcn : captureName seg <;> simp [substituteElems, hcn]

/-- In the substituted elements of a path there is one placeholder for each capture, next
to the `%v` the other elements hold themselves. -/
theorem countPlaceholders_substituteElems_exact :
    ∀ (elems : List (List Char)),
      countPlaceholders (substituteElems elems) =
        (elems.filterMap captureName).length + (elems.map (fun seg =>
          match captureName seg with
          | some _ => 0
          | none => countPlaceholders seg)).sum := by
  intro elems
  induction elems with
  | nil => rfl
  | cons seg elems ih =>
    have hcons : substituteElems (seg :: elems) =
        (match captureName seg with
         | some _ => ['/', '%', 'v']
         | none => '/' :: seg) ++ substituteElems elems := by
      simp [substituteElems]
    rw [hcons, countPlaceholders_add _ _ (substituteElems_head elems), ih]
    cases hcn : captureName seg with
    | none =>
      have hslash : countPlaceholders ('/' :: seg) = countPlaceholders seg := by
        rw [countPlaceholders]
        intro _ hpercent _
        exact absurd hpercent (by decide)
      simp only [List.filterMap_cons, hcn, List.map_cons, List.sum_cons, hslash]
      omega
    | some v =>
      have hone : countPlaceholders ['/', '%', 'v'] = 1 := by decide
      simp only [List.filterMap_cons, hcn, List.map_cons, List.sum_cons, List.length_cons, hone]
      omega

/-- C8, as the code has it: for a resource whose canonical action has a first route, the
record built by `generateHrefs` has as `CanonicalTemplate` the path of that route with
each wildcard capture replaced, from left to right, by `%v`, and as `CanonicalParams` the
names of the captures in the same order. The number of `%v` placeholders of the template
is the length of `CanonicalParams` plus the number of `%v` the path holds by itself
outside its captures; so the two are equal when the path holds no `%v` of its own, as
when it holds no percent sign. -/
theorem generateHrefs_canonical (env : Env) (r : ResourceDefinition) (ca : ActionDefinition)
    (rt : RouteDefinition) (routes : List RouteDefinition)
    (hca : r.CanonicalAction = some ca) (hrt : ca.Routes = rt :: routes) :
    (resourceData env r).CanonicalTemplate = substituteCaptures rt.Path ∧
    (resourceData env r).CanonicalParams = captureNames rt.Path ∧
    countPlaceholders (resourceData env r).CanonicalTemplate.toList =
      (resourceData env r).CanonicalParams.length + staticPlaceholders rt.Path ∧
    (staticPlaceholders rt.Path = 0 →
      countPlaceholders (resourceData env r).CanonicalTemplate.toList =
        (resourceData env r).CanonicalParams.length) ∧
    ('%' ∉ rt.Path.toList →
      countPlaceholders (resourceData env r).CanonicalTemplate.toList =
        (resourceData env r).CanonicalParams.length) := by
  obtain ⟨first, rest, hsplit⟩ := splitSlash_exists rt.Path.toList
  have htemplate : (resourceData env r).CanonicalTemplate = substituteCaptures rt.Path := by
    simp only [resourceData, ResourceDefinition.URITemplate, hca, hrt,
      WildcardRegex.ReplaceAllLiteralString, substituteCaptures, hsplit]
    exact congrArg String.mk (replaceWildcards_split _ first rest hsplit).1
  have hparams : (resourceData env r).CanonicalParams = captureNames rt.Path := by
    simp only [resourceData, hca, hrt]
    exact Params_eq_captureNames rt
  have hexact : countPlaceholders (resourceData env r).CanonicalTemplate.toList =
      (resourceData env r).CanonicalParams.length + staticPlaceholders rt.Path := by
    rw [htemplate, hparams]
    simp only [substituteCaptures, captureNames, staticPlaceholders, hsplit, List.tail_cons]
    show countPlaceholders (first ++ substituteElems rest) = _
    rw [countPlaceholders_add _ _ (substituteElems_head rest),
      countPlaceholders_substituteElems_exact]
    omega
  refine ⟨htemplate, hparams, hexact, ?_, ?_⟩
  · intro hstatic
    rw [hexact, hstatic, Nat.add_zero]
  · intro hpercent
    rw [htemplate, hparams]
    simp only [substituteCaptures, captureNames, hsplit, List.tail_cons]
    have hfirst : '%' ∉ first := fun hmem =>
      hpercent (mem_of_mem_splitSlash '%' _ first (hsplit ▸ List.mem_cons_self _ _) hmem)
    have hrest : ∀ seg ∈ rest, '%' ∉ seg := fun seg hseg hmem =>
      hpercent (mem_of_mem_splitSlash '%' _ seg (hsplit ▸ List.mem_cons_of_mem _ hseg) hmem)
    show countPlaceholders (first ++ substituteElems rest) = _
    rw [countPlaceholders_append _ _ hfirst, countPlaceholders_substituteElems rest hrest]

/-- Witness of C8: the route `/bottles/:id/reviews/:reviewID` gives the template
`/bottles/%v/reviews/%v` and the parameters `id`, `reviewID`, two of each. -/
theorem generateHrefs_canonical_witness :
    (resourceData Sample.env Sample.review).CanonicalTemplate = "/bottles/%v/reviews/%v" ∧
    (resourceData Sample.env Sample.review).CanonicalParams = ["id", "reviewID"] ∧
    countPlaceholders (resourceData Sample.env Sample.review).CanonicalTemplate.toList =
      (resourceData Sample.env Sample.review).CanonicalParams.length :=
  have h := generateHrefs_canonical Sample.env Sample.review Sample.showReview
    ⟨"GET", "/bottles/:id/reviews/:reviewID"⟩ [] rfl rfl
  ⟨h.1.trans (by decide), h.2.1.trans (by decide), h.2.2.2.1 (by decide)⟩

/-- Counterexample to C8: for the canonical route `/a%v/:id` the template is `/a%v/%v`,
with two `%v`, and there is one parameter, `id`. -/
theorem generateHrefs_canonical_percent :
    (resourceData Sample.env Sample.percent).CanonicalTemplate = "/a%v/%v" ∧
    (resourceData Sample.env Sample.percent).CanonicalParams = ["id"] ∧
    countPlaceholders (resourceData Sample.env Sample.percent).CanonicalTemplate.toList = 2 ∧
    countPlaceholders (resourceData Sample.env Sample.percent).CanonicalTemplate.toList ≠
      (resourceData Sample.env Sample.percent).CanonicalParams.length := by
  decide

/-- The names of the generated files are plain. -/
theorem plain_names :
    PlainName "contexts.go" = true ∧ PlainName "controllers.go" = true ∧
    PlainName "hrefs.go" = true ∧ PlainName "media_types.go" = true ∧
    PlainName "user_types.go" = true := by
  decide

/-- What the files of a version denote: the elements of the output directory followed by those of the version and the name of the file. -/
theorem elemsOf_versionFiles (env : Env) (v : APIVersionDefinition)
    (hout : AppOutputDir env ≠ "") (hv : v.Version = "" ∨ PlainName v.Version = true) :
    (versionFiles env v).map elemsOf =
      (versionSuffixes v).map (fun t =>
        ((elemsOf (AppOutputDir env)).1, (elemsOf (AppOutputDir env)).2 ++ t)) := by
  have hdir := elemsOf_Join (AppOutputDir env) v.Version hout hv
  have hne := Join_pair_ne (AppOutputDir env) v.Version hout
  simp only [versionFiles, versionSuffixes, List.map_cons, List.map_nil]
  rw [elemsOf_Join _ _ hne (Or.inr plain_names.1),
    elemsOf_Join _ _ hne (Or.inr plain_names.2.1),
    elemsOf_Join _ _ hne (Or.inr plain_names.2.2.1), hdir]
  simp [nameElems, List.append_assoc]

/-- Different names add different elements. -/
theorem nameElems_inj (a b : String) (h : nameElems a = nameElems b) : a = b := by
  unfold nameElems at h
  by_cases ha : a = "" <;> by_cases hb : b = "" <;> simp [ha, hb] at h
  · rw [ha, hb]
  · cases a; cases b; simp_all

/-- Two files with equal elements have the same version and the same name. -/
theorem suffix_eq (a b : String) (c d : List Char)
    (h : nameElems a ++ [c] = nameElems b ++ [d]) : a = b ∧ c = d := by
  have := List.append_inj' h rfl
  exact ⟨nameElems_inj a b this.1, by simpa using this.2⟩

/-- The files of a version are its contexts, controllers and hrefs files. -/
theorem mem_versionSuffixes (v : APIVersionDefinition) (x : List (List Char))
    (hx : x ∈ versionSuffixes v) :
    ∃ c, x = nameElems v.Version ++ [c] ∧
      (c = "contexts.go".toList ∨ c = "controllers.go".toList ∨ c = "hrefs.go".toList) := by
  simp only [versionSuffixes, List.mem_cons, List.mem_singleton, List.not_mem_nil, or_false] at hx
  rcases hx with rfl | rfl | rfl
  · exact ⟨_, rfl, Or.inl rfl⟩
  · exact ⟨_, rfl, Or.inr (Or.inl rfl)⟩
  · exact ⟨_, rfl, Or.inr (Or.inr rfl)⟩

/-- For versions with different names, the elements after those of the output directory differ from one entry of the returned list to the other. -/
theorem suffixes_nodup (vs : List APIVersionDefinition)
    (hdist : (vs.map (fun v => v.Version)).Nodup) :
    ([] :: (vs.flatMap versionSuffixes ++
      [["media_types.go".toList], ["user_types.go".toList]])).Nodup := by
  rw [List.nodup_cons]
  constructor
  · intro hmem
    rcases List.mem_append.mp hmem with h | h
    · obtain ⟨v, -, hx⟩ := List.mem_flatMap.mp h
      obtain ⟨c, hc, -⟩ := mem_versionSuffixes v _ hx
      cases hn : nameElems v.Version <;> simp [hn] at hc
    · simp at h
  · rw [List.nodup_append]
    refine ⟨?_, by decide, ?_⟩
    · rw [List.nodup_flatMap]
      constructor
      · intro v _
        have h12 : "contexts.go".toList ≠ "controllers.go".toList := by decide
        have h13 : "contexts.go".toList ≠ "hrefs.go".toList := by decide
        have h23 : "controllers.go".toList ≠ "hrefs.go".toList := by decide
        simp [versionSuffixes, h12, h13, h23]
      · rw [List.Nodup, List.pairwise_map] at hdist
        refine hdist.imp ?_
        intro a b hab x hxa hxb
        obtain ⟨c, hc, -⟩ := mem_versionSuffixes a x hxa
        obtain ⟨d, hd, -⟩ := mem_versionSuffixes b x hxb
        exact hab (suffix_eq _ _ c d (hc.symm.trans hd)).1
    · intro x hx hy
      obtain ⟨v, -, hxv⟩ := List.mem_flatMap.mp hx
      obtain ⟨c, hc, hname⟩ := mem_versionSuffixes v x hxv
      have hlast : c = "media_types.go".toList ∨ c = "user_types.go".toList := by
        simp only [List.mem_cons, List.mem_singleton, List.not_mem_nil, or_false] at hy
        rcases hy with hy | hy
        · rw [hy] at hc
          cases hn : nameElems v.Version <;> simp [hn] at hc
          exact Or.inl hc.symm
        · rw [hy] at hc
          cases hn : nameElems v.Version <;> simp [hn] at hc
          exact Or.inr hc.symm
      rcases hname with rfl | rfl | rfl <;> rcases hlast with h | h <;>
        exact absurd h (by decide)


/-- What the files of the versions denote. -/
theorem elemsOf_flatMap_versionFiles (env : Env) (hout : AppOutputDir env ≠ "") :
    ∀ (vs : List APIVersionDefinition), (∀ v ∈ vs, v.Version = "" ∨ PlainName v.Version = true) →
      (vs.flatMap (versionFiles env)).map elemsOf =
        (vs.flatMap versionSuffixes).map (fun t =>
          ((elemsOf (AppOutputDir env)).1, (elemsOf (AppOutputDir env)).2 ++ t)) := by
  intro vs
  induction vs with
  | nil => intro _; rfl
  | cons v vs ih =>
    intro h
    rw [List.flatMap_cons, List.flatMap_cons, List.map_append, List.map_append,
      elemsOf_versionFiles env v hout (h v (List.mem_cons_self _ _)),
      ih (fun x hx => h x (List.mem_cons_of_mem _ hx))]

/-- For versions with different names that are empty or plain, the output directory and the files of a run are different paths. -/
theorem files_nodup (env : Env) (api : APIDefinition) (hout : AppOutputDir env ≠ "")
    (hver : ∀ v ∈ api.Versions, v.Version = "" ∨ PlainName v.Version = true)
    (hdist : (api.Versions.map (fun v => v.Version)).Nodup) :
    (AppOutputDir env :: expectedFiles env api).Nodup := by
  apply List.Nodup.of_map elemsOf
  have hmap : (AppOutputDir env :: expectedFiles env api).map elemsOf =
      ([] :: (api.Versions.flatMap versionSuffixes ++
        [["media_types.go".toList], ["user_types.go".toList]])).map (fun t =>
          ((elemsOf (AppOutputDir env)).1, (elemsOf (AppOutputDir env)).2 ++ t)) := by
    simp only [expectedFiles, List.map_cons, List.map_append, List.map_nil,
      elemsOf_flatMap_versionFiles env hout api.Versions hver, List.append_nil]
    rw [elemsOf_Join _ _ hout (Or.inr plain_names.2.2.2.1),
      elemsOf_Join _ _ hout (Or.inr plain_names.2.2.2.2)]
    rfl
  rw [hmap]
  refine (suffixes_nodup api.Versions hdist).map ?_
  intro a b hab
  simp only [Prod.mk.injEq, true_and] at hab
  exact List.append_cancel_left hab

/-- A part that does nothing. -/
theorem Eff.refl (s : St) : Eff s .ok s [] [] [] :=
  ⟨[], by simp, by simp [mediaTypesExecuted], fun _ => by simp [mediaTypesExecuted, filesGenerated],
    fun h => by simp at h, id⟩

/-- A part that returned nil followed by another part. -/
theorem Eff.trans {s s1 s2 : St} {r : Res} {g1 g2 w1 w2 : List String}
    {m1 m2 : List MediaTypeDefinition}
    (h1 : Eff s .ok s1 g1 w1 m1) (h2 : Eff s1 r s2 g2 w2 m2) :
    Eff s r s2 (g1 ++ g2) (w1 ++ w2) (m1 ++ m2) := by
  obtain ⟨n1, hl1, -, hok1, hf1, hg1⟩ := h1
  obtain ⟨n2, hl2, hp2, hok2, hf2, hg2⟩ := h2
  obtain ⟨hm1, hgf1, hw1⟩ := hok1 rfl
  refine ⟨n1 ++ n2, by rw [hl2, hl1, List.append_assoc], ?_, ?_, ?_, fun h => hg2 (hg1 h)⟩
  · simp only [mediaTypesExecuted, List.filterMap_append] at hm1 hp2 ⊢
    rw [hm1]
    exact (List.prefix_append_right_inj m1).mpr hp2
  · intro hr
    obtain ⟨hm2, hgf2, hw2⟩ := hok2 hr
    refine ⟨?_, by rw [hgf2, hgf1, List.append_assoc], ?_⟩
    · simp only [mediaTypesExecuted, List.filterMap_append] at hm1 hm2 ⊢
      rw [hm1, hm2]
    · simp only [filesGenerated, List.filterMap_append] at hw1 hw2 ⊢
      rw [hw1, hw2]
  · rintro ⟨ev, hev, hfail⟩
    rcases List.mem_append.mp hev with h | h
    · obtain ⟨e, he⟩ := hf1 ⟨ev, h, hfail⟩
      exact absurd he (by simp)
    · exact hf2 ⟨ev, h, hfail⟩

/-- A part that stops, seen as a part from which more was expected. -/
theorem Eff.stop {s s1 : St} {r : Res} {g w : List String} {m : List MediaTypeDefinition}
    (h : Eff s r s1 g w m) (hr : r ≠ .ok) (g2 w2 : List String)
    (m2 : List MediaTypeDefinition) : Eff s r s1 g2 w2 (m ++ m2) := by
  obtain ⟨n, hl, hp, -, hf, hg⟩ := h
  exact ⟨n, hl, hp.trans (List.prefix_append m m2), fun h => absurd h hr, hf, hg⟩

/-- An iteration is the succession of its parts. -/
theorem eff_iterate {α : Type} (it : α → St → Res × St) (g w : α → List String)
    (m : α → List MediaTypeDefinition)
    (hit : ∀ x s, Eff s (it x s).1 (it x s).2 (g x) (w x) (m x)) :
    ∀ (xs : List α) (s : St),
      Eff s (iterate it xs s).1 (iterate it xs s).2 (xs.flatMap g) (xs.flatMap w)
        (xs.flatMap m) := by
  intro xs
  induction xs with
  | nil => intro s; exact Eff.refl s
  | cons x xs ih =>
    intro s
    have hx := hit x s
    simp only [iterate, List.flatMap_cons]
    cases hres : it x s with
    | mk r s1 =>
      rw [hres] at hx
      cases r with
      | ok => exact Eff.trans hx (ih s1)
      | err e => exact Eff.stop hx (by simp) _ _ _
      | panic msg => exact Eff.stop hx (by simp) _ _ _

/-- A part that did not return nil puts no condition on the files. -/
theorem Eff.of_ne_ok {s s1 : St} {r : Res} {g w : List String} {m : List MediaTypeDefinition}
    (h : Eff s r s1 g w m) (hr : r ≠ .ok) (g2 w2 : List String) :
    Eff s r s1 g2 w2 m := by
  obtain ⟨n, hl, hp, -, hf, hg⟩ := h
  exact ⟨n, hl, hp, fun h => absurd h hr, hf, hg⟩

/-- Appending a file to `genfiles` after a part. -/
theorem Eff.genfiles_append {s s1 : St} {r : Res} {g w : List String}
    {m : List MediaTypeDefinition} (h : Eff s r s1 g w m) (file : String) :
    Eff s r { s1 with genfiles := s1.genfiles ++ [file] } (g ++ [file]) w m := by
  obtain ⟨n, hl, hp, hok, hf, -⟩ := h
  refine ⟨n, hl, hp, ?_, hf, fun _ => by simp⟩
  intro hr
  obtain ⟨hm, hgf, hw⟩ := hok hr
  exact ⟨hm, by simp [hgf], hw⟩

/-- A call that is neither the construction of a writer nor the execution of the media
types writer, returned as it is. -/
theorem eff_call (env : Env) (c : Call) (s : St)
    (hmt : ∀ e, mediaTypesExecuted [(c, e)] = []) (hw : ∀ e, filesGenerated [(c, e)] = []) :
    Eff s (Res.ofError (call env c s)).1 (Res.ofError (call env c s)).2 [] [] [] := by
  refine ⟨[(c, env.io c)], ?_, by simp [hmt], ?_, ?_, ?_⟩
  · cases h : env.io c <;> simp [call, Res.ofError, h]
  · intro _
    refine ⟨hmt _, ?_, hw _⟩
    cases h : env.io c <;> simp [call, Res.ofError, h]
  · rintro ⟨ev, hev, hfail⟩
    rw [List.mem_singleton] at hev
    subst hev
    cases h : env.io c with
    | none => simp [stepFailed, h] at hfail
    | some e => exact ⟨e, by simp [call, Res.ofError, h]⟩
  · cases h : env.io c <;> simp [call, Res.ofError, h]

/-- The construction of a writer that succeeds. -/
theorem eff_newWriter (env : Env) (file : String) (s : St)
    (h : env.io (.NewWriter file) = none) :
    (NewWriter env file s).1 = none ∧ Eff s .ok (NewWriter env file s).2 [] [file] [] := by
  refine ⟨by simp [NewWriter, call, h], [(.NewWriter file, none)], ?_, ?_, ?_, ?_, ?_⟩
  · simp [NewWriter, call, h]
  · simp [mediaTypesExecuted]
  · intro _
    simp [mediaTypesExecuted, filesGenerated, NewWriter, call, h]
  · rintro ⟨ev, hev, hfail⟩
    rw [List.mem_singleton] at hev
    subst hev
    simp [stepFailed] at hfail
  · simp [NewWriter, call, h]

/-- The construction of a writer that fails: the caller panics. -/
theorem eff_newWriter_panic (env : Env) (file : String) (s : St) (e : String)
    (h : env.io (.NewWriter file) = some e) (g w : List String) :
    NewWriter env file s = (some e, (NewWriter env file s).2) ∧
    Eff s (.panic e) (NewWriter env file s).2 g w [] := by
  refine ⟨by simp [NewWriter, call, h], [(.NewWriter file, some e)], ?_, ?_, ?_, ?_, ?_⟩
  · simp [NewWriter, call, h]
  · simp [mediaTypesExecuted]
  · intro hr
    exact absurd hr (by simp)
  · rintro ⟨ev, hev, hfail⟩
    rw [List.mem_singleton] at hev
    subst hev
    simp [stepFailed, Call.isStep] at hfail
  · simp [NewWriter, call, h]

/-- Writing the header of a file. -/
theorem eff_writeHeader (env : Env) (file title : String) (s : St) :
    Eff s .ok (WriteHeader env file title s) [] [] [] := by
  refine ⟨[(.WriteHeader file title, env.io (.WriteHeader file title))], ?_, ?_, ?_, ?_, ?_⟩
  · simp [WriteHeader, call]
  · simp [mediaTypesExecuted]
  · intro _
    simp [mediaTypesExecuted, filesGenerated, WriteHeader, call]
  · rintro ⟨ev, hev, hfail⟩
    rw [List.mem_singleton] at hev
    subst hev
    simp [stepFailed, Call.isStep] at hfail
  · simp [WriteHeader, call]

/-- A change of the heap alone is not seen by `Eff`. -/
theorem Eff.heap {s s1 : St} {r : Res} {g w : List String} {m : List MediaTypeDefinition}
    (heap : Heap) (h : Eff { s with heap := heap } r s1 g w m) : Eff s r s1 g w m := h

/-- The iterator of the actions in `generateContexts`. -/
theorem eff_contextsAction (env : Env) (ctxFile : String) (r : ResourceDefinition)
    (a : ActionDefinition) (s : St) :
    Eff s (contextsAction env ctxFile r a s).1 (contextsAction env ctxFile r a s).2 [] [] [] := by
  unfold contextsAction
  cases contextName env a with
  | none =>
    exact ⟨[], by simp, by simp [mediaTypesExecuted], fun h => absurd h (by simp),
      fun h => by simp at h, id⟩
  | some ctxName =>
    exact Eff.heap _ (eff_call env _ _ (fun _ => rfl) (fun _ => rfl))

/-- Collecting nothing from every element gives nothing. -/
theorem flatMap_nothing {α β : Type} (xs : List α) : xs.flatMap (fun _ => ([] : List β)) = [] := by
  induction xs with
  | nil => rfl
  | cons x xs ih => simp [List.flatMap_cons, ih]

/-- Iterating an iterator that generates no file and executes no media type. -/
theorem eff_iterate_nil {α : Type} (it : α → St → Res × St)
    (hit : ∀ x s, Eff s (it x s).1 (it x s).2 [] [] []) (xs : List α) (s : St) :
    Eff s (iterate it xs s).1 (iterate it xs s).2 [] [] [] := by
  have h := eff_iterate it (fun _ => []) (fun _ => []) (fun _ => []) hit xs s
  rw [flatMap_nothing, flatMap_nothing] at h
  exact h

/-- `generateContexts` adds its file to `genfiles` and builds its writer. -/
theorem eff_generateContexts (env : Env) (verdir : String) (api : APIDefinition)
    (version : APIVersionDefinition) (s : St) :
    Eff s (generateContexts env verdir api version s).1
      (generateContexts env verdir api version s).2
      [Filepath.Join [verdir, "contexts.go"]] [Filepath.Join [verdir, "contexts.go"]] [] := by
  unfold generateContexts
  cases hio : env.io (.NewWriter (Filepath.Join [verdir, "contexts.go"])) with
  | some e =>
    obtain ⟨heq, heff⟩ := eff_newWriter_panic env _ s e hio
      [Filepath.Join [verdir, "contexts.go"]] [Filepath.Join [verdir, "contexts.go"]]
    simp only []
    rw [heq]
    exact heff
  | none =>
    obtain ⟨hnone, heff⟩ := eff_newWriter env _ s hio
    have hpair : NewWriter env (Filepath.Join [verdir, "contexts.go"]) s =
        (none, (NewWriter env (Filepath.Join [verdir, "contexts.go"]) s).2) :=
      Prod.ext hnone rfl
    simp only []
    rw [hpair]
    simp only []
    have h2 := Eff.trans heff (eff_writeHeader env (Filepath.Join [verdir, "contexts.go"])
      (version.Context ++ ": Application Contexts")
      (NewWriter env (Filepath.Join [verdir, "contexts.go"]) s).2)
    have h3 := Eff.trans h2 (eff_iterate_nil
      (fun r => iterate (contextsAction env (Filepath.Join [verdir, "contexts.go"]) r)
        r.Actions)
      (fun r st => eff_iterate_nil _ (eff_contextsAction env _ r) r.Actions st)
      version.Resources
      (WriteHeader env (Filepath.Join [verdir, "contexts.go"])
        (version.Context ++ ": Application Contexts")
        (NewWriter env (Filepath.Join [verdir, "contexts.go"]) s).2))
    simp only [List.append_nil, List.nil_append] at h3
    revert h3
    generalize iterate _ version.Resources _ = res
    intro h3
    obtain ⟨r3, s3⟩ := res
    cases r3 with
    | panic m => exact h3.of_ne_ok (by simp) _ _
    | err e => exact (h3.genfiles_append _).of_ne_ok (by simp) _ _
    | ok =>
      have h4 := Eff.trans (h3.genfiles_append (Filepath.Join [verdir, "contexts.go"]))
        (eff_call env (.FormatCode (Filepath.Join [verdir, "contexts.go"]))
          { s3 with genfiles := s3.genfiles ++ [Filepath.Join [verdir, "contexts.go"]] }
          (fun _ => rfl) (fun _ => rfl))
      simpa [FormatCode] using h4

/-- `generateHrefs` adds its file to `genfiles` and builds its writer. -/
theorem eff_generateHrefs (env : Env) (verdir : String) (version : APIVersionDefinition)
    (s : St) :
    Eff s (generateHrefs env verdir version s).1 (generateHrefs env verdir version s).2
      [Filepath.Join [verdir, "hrefs.go"]] [Filepath.Join [verdir, "hrefs.go"]] [] := by
  unfold generateHrefs
  cases hio : env.io (.NewWriter (Filepath.Join [verdir, "hrefs.go"])) with
  | some e =>
    obtain ⟨heq, heff⟩ := eff_newWriter_panic env _ s e hio
      [Filepath.Join [verdir, "hrefs.go"]] [Filepath.Join [verdir, "hrefs.go"]]
    simp only []
    rw [heq]
    exact heff
  | none =>
    obtain ⟨hnone, heff⟩ := eff_newWriter env _ s hio
    have hpair : NewWriter env (Filepath.Join [verdir, "hrefs.go"]) s =
        (none, (NewWriter env (Filepath.Join [verdir, "hrefs.go"]) s).2) :=
      Prod.ext hnone rfl
    simp only []
    rw [hpair]
    simp only []
    have h2 := Eff.trans heff (eff_writeHeader env (Filepath.Join [verdir, "hrefs.go"])
      (version.Context ++ ": Application Resource Href Factories")
      (NewWriter env (Filepath.Join [verdir, "hrefs.go"]) s).2)
    have h3 := Eff.trans h2 (eff_iterate_nil
      (fun r st => Res.ofError
        (call env (.ExecuteResource (Filepath.Join [verdir, "hrefs.go"]) (resourceData env r)) st))
      (fun r st => eff_call env _ st (fun _ => rfl) (fun _ => rfl))
      version.Resources
      (WriteHeader env (Filepath.Join [verdir, "hrefs.go"])
        (version.Context ++ ": Application Resource Href Factories")
        (NewWriter env (Filepath.Join [verdir, "hrefs.go"]) s).2))
    simp only [List.append_nil, List.nil_append] at h3
    revert h3
    generalize iterate _ version.Resources _ = res
    intro h3
    obtain ⟨r3, s3⟩ := res
    cases r3 with
    | panic m => exact h3.of_ne_ok (by simp) _ _
    | err e => exact (h3.genfiles_append _).of_ne_ok (by simp) _ _
    | ok =>
      have h4 := Eff.trans (h3.genfiles_append (Filepath.Join [verdir, "hrefs.go"]))
        (eff_call env (.FormatCode (Filepath.Join [verdir, "hrefs.go"]))
          { s3 with genfiles := s3.genfiles ++ [Filepath.Join [verdir, "hrefs.go"]] }
          (fun _ => rfl) (fun _ => rfl))
      simpa [FormatCode] using h4

/-- `generateControllers` adds its file to `genfiles` and builds its writer. -/
theorem eff_generateControllers (env : Env) (verdir : String)
    (version : APIVersionDefinition) (s : St) :
    Eff s (generateControllers env verdir version s).1
      (generateControllers env verdir version s).2
      [Filepath.Join [verdir, "controllers.go"]] [Filepath.Join [verdir, "controllers.go"]]
      [] := by
  unfold generateControllers
  cases hio : env.io (.NewWriter (Filepath.Join [verdir, "controllers.go"])) with
  | some e =>
    obtain ⟨heq, heff⟩ := eff_newWriter_panic env _ s e hio
      [Filepath.Join [verdir, "controllers.go"]] [Filepath.Join [verdir, "controllers.go"]]
    simp only []
    rw [heq]
    exact heff
  | none =>
    obtain ⟨hnone, heff⟩ := eff_newWriter env _ s hio
    have hpair : NewWriter env (Filepath.Join [verdir, "controllers.go"]) s =
        (none, (NewWriter env (Filepath.Join [verdir, "controllers.go"]) s).2) :=
      Prod.ext hnone rfl
    simp only []
    rw [hpair]
    simp only []
    have h2 := (Eff.trans heff (eff_writeHeader env (Filepath.Join [verdir, "controllers.go"])
      (version.Context ++ ": Application Controllers")
      (NewWriter env (Filepath.Join [verdir, "controllers.go"]) s).2)).genfiles_append
        (Filepath.Join [verdir, "controllers.go"])
    have h3 := Eff.trans h2 (eff_call env
      (.ExecuteControllers (Filepath.Join [verdir, "controllers.go"])
        (version.Resources.foldl (controllersResource env version) []))
      _ (fun _ => rfl) (fun _ => rfl))
    simp only [List.append_nil, List.nil_append] at h3
    cases hexec : env.io (.ExecuteControllers (Filepath.Join [verdir, "controllers.go"])
        (version.Resources.foldl (controllersResource env version) [])) with
    | some e =>
      simp only [call, hexec, Res.ofError] at h3 ⊢
      exact h3
    | none =>
      simp only [call, hexec, Res.ofError] at h3 ⊢
      have h4 := Eff.trans h3 (eff_call env
        (.FormatCode (Filepath.Join [verdir, "controllers.go"])) _ (fun _ => rfl) (fun _ => rfl))
      simpa [FormatCode, call] using h4

/-- Creating a directory. -/
theorem eff_mkdirAll (env : Env) (dir : String) (s : St) :
    Eff s (match (MkdirAll env dir s).1 with
      | none => Res.ok
      | some e => Res.err e) (MkdirAll env dir s).2 [] [] [] := by
  have h := eff_call env (.MkdirAll dir) s (fun _ => rfl) (fun _ => rfl)
  cases hio : env.io (.MkdirAll dir) with
  | some e =>
    simp only [call, hio, Res.ofError, MkdirAll] at h ⊢
    exact h
  | none =>
    simp only [call, hio, Res.ofError, MkdirAll] at h ⊢
    obtain ⟨n, hl, hp, hok, hf, hg⟩ := h
    exact ⟨n, hl, hp, hok, hf, hg⟩

/-- The iterator of the versions adds the three files of the version. -/
theorem eff_generateVersion (env : Env) (api : APIDefinition) (v : APIVersionDefinition)
    (s : St) :
    Eff s (generateVersion env api (AppOutputDir env) v s).1
      (generateVersion env api (AppOutputDir env) v s).2
      (versionFiles env v) (versionFiles env v) [] := by
  unfold generateVersion
  simp only []
  have h1 := eff_mkdirAll env (Filepath.Join [AppOutputDir env, v.Version]) s
  revert h1
  generalize MkdirAll env (Filepath.Join [AppOutputDir env, v.Version]) s = res1
  intro h1
  obtain ⟨e1, s1⟩ := res1
  cases e1 with
  | some e => exact h1.of_ne_ok (by simp) _ _
  | none =>
    simp only [] at h1 ⊢
    have h2 := Eff.trans h1
      (eff_generateContexts env (Filepath.Join [AppOutputDir env, v.Version]) api v s1)
    revert h2
    generalize generateContexts env (Filepath.Join [AppOutputDir env, v.Version]) api v s1 = res2
    intro h2
    obtain ⟨r2, s2⟩ := res2
    cases r2 with
    | err e => exact h2.of_ne_ok (by simp) _ _
    | panic m => exact h2.of_ne_ok (by simp) _ _
    | ok =>
      simp only [] at h2 ⊢
      have h3 := Eff.trans h2
        (eff_generateControllers env (Filepath.Join [AppOutputDir env, v.Version]) v s2)
      revert h3
      generalize generateControllers env (Filepath.Join [AppOutputDir env, v.Version]) v s2 = res3
      intro h3
      obtain ⟨r3, s3⟩ := res3
      cases r3 with
      | err e => exact h3.of_ne_ok (by simp) _ _
      | panic m => exact h3.of_ne_ok (by simp) _ _
      | ok =>
        simp only [] at h3 ⊢
        have h4 := Eff.trans h3
          (eff_generateHrefs env (Filepath.Join [AppOutputDir env, v.Version]) v s3)
        simpa [versionFiles] using h4

/-- The iterator of the media types executes the writer on the media types of object
or array shape. -/
theorem eff_mediaTypesIterator (env : Env) (mtFile : String) (mt : MediaTypeDefinition)
    (s : St) :
    Eff s (mediaTypesIterator env mtFile mt s).1 (mediaTypesIterator env mtFile mt s).2 [] []
      (if mt.Typ.IsObject || mt.Typ.IsArray then [mt] else []) := by
  unfold mediaTypesIterator
  cases hshape : mt.Typ.IsObject || mt.Typ.IsArray with
  | false => simpa using Eff.refl s
  | true =>
    simp only [if_true]
    refine ⟨[(.ExecuteMediaType mtFile mt, env.io (.ExecuteMediaType mtFile mt))], ?_, ?_, ?_, ?_, ?_⟩
    · cases h : env.io (.ExecuteMediaType mtFile mt) <;> simp [call, Res.ofError, h]
    · simp [mediaTypesExecuted]
    · intro _
      refine ⟨by simp [mediaTypesExecuted], ?_, by simp [filesGenerated]⟩
      cases h : env.io (.ExecuteMediaType mtFile mt) <;> simp [call, Res.ofError, h]
    · rintro ⟨ev, hev, hfail⟩
      rw [List.mem_singleton] at hev
      subst hev
      cases h : env.io (.ExecuteMediaType mtFile mt) with
      | none => simp [stepFailed, h] at hfail
      | some e => exact ⟨e, by simp [call, Res.ofError, h]⟩
    · cases h : env.io (.ExecuteMediaType mtFile mt) <;> simp [call, Res.ofError, h]

/-- Collecting the elements that pass a test is filtering. -/
theorem flatMap_if_eq_filter {α : Type} (p : α → Bool) (xs : List α) :
    xs.flatMap (fun x => if p x then [x] else []) = xs.filter p := by
  induction xs with
  | nil => rfl
  | cons x xs ih =>
    cases hp : p x <;> simp [List.flatMap_cons, List.filter_cons, hp, ih]

/-- A part that returned nil followed by the last parts of the body. -/
theorem oeff_after {s s1 s2 : St} {o : Outcome} {g1 g2 w1 w2 : List String}
    {m1 m2 : List MediaTypeDefinition}
    (h1 : Eff s .ok s1 g1 w1 m1) (h2 : OEff s1 o s2 g2 w2 m2) :
    OEff s o s2 (g1 ++ g2) (w1 ++ w2) (m1 ++ m2) :=
  ⟨Eff.trans h1 h2.1, h2.2.1, h2.2.2⟩

/-- The user types part adds its file to `genfiles`, builds its writer and returns
`genfiles`. -/
theorem oeff_generateUserTypes (env : Env) (api : APIDefinition) (s : St) :
    OEff s (generateUserTypes env api (AppOutputDir env) s).1
      (generateUserTypes env api (AppOutputDir env) s).2
      [Filepath.Join [AppOutputDir env, "user_types.go"]]
      [Filepath.Join [AppOutputDir env, "user_types.go"]] [] := by
  unfold generateUserTypes
  simp only []
  cases hio : env.io (.NewWriter (Filepath.Join [AppOutputDir env, "user_types.go"])) with
  | some e =>
    obtain ⟨heq, heff⟩ := eff_newWriter_panic env _ s e hio
      [Filepath.Join [AppOutputDir env, "user_types.go"]]
      [Filepath.Join [AppOutputDir env, "user_types.go"]]
    rw [heq]
    exact ⟨heff, fun _ h => by simp at h, fun _ _ h => by simp at h⟩
  | none =>
    obtain ⟨hnone, heff⟩ := eff_newWriter env _ s hio
    have hpair : NewWriter env (Filepath.Join [AppOutputDir env, "user_types.go"]) s =
        (none, (NewWriter env (Filepath.Join [AppOutputDir env, "user_types.go"]) s).2) :=
      Prod.ext hnone rfl
    rw [hpair]
    simp only []
    have h2 := Eff.trans heff (eff_writeHeader env
      (Filepath.Join [AppOutputDir env, "user_types.go"])
      (api.Context ++ ": Application User Types")
      (NewWriter env (Filepath.Join [AppOutputDir env, "user_types.go"]) s).2)
    have h3 := Eff.trans h2 (eff_iterate_nil
      (userTypesIterator env (Filepath.Join [AppOutputDir env, "user_types.go"]))
      (fun t st => eff_call env _ st (fun _ => rfl) (fun _ => rfl))
      api.UserTypes
      (WriteHeader env (Filepath.Join [AppOutputDir env, "user_types.go"])
        (api.Context ++ ": Application User Types")
        (NewWriter env (Filepath.Join [AppOutputDir env, "user_types.go"]) s).2))
    simp only [List.append_nil, List.nil_append] at h3
    revert h3
    generalize iterate _ api.UserTypes _ = res
    intro h3
    obtain ⟨r3, s3⟩ := res
    cases r3 with
    | panic m =>
      exact ⟨h3.of_ne_ok (by simp) _ _, fun _ h => by simp at h, fun _ _ h => by simp at h⟩
    | err e =>
      refine ⟨(h3.genfiles_append _).of_ne_ok (by simp) _ _, fun _ h => by simp at h, ?_⟩
      intro files e2 h
      simp only [Outcome.returned.injEq] at h
      exact h.1.symm
    | ok =>
      have h4 := Eff.trans
        (h3.genfiles_append (Filepath.Join [AppOutputDir env, "user_types.go"]))
        (eff_call env (.FormatCode (Filepath.Join [AppOutputDir env, "user_types.go"]))
          { s3 with genfiles := s3.genfiles ++ [Filepath.Join [AppOutputDir env, "user_types.go"]] }
          (fun _ => rfl) (fun _ => rfl))
      simp only [List.append_nil, List.nil_append] at h4
      cases hfmt : env.io (.FormatCode (Filepath.Join [AppOutputDir env, "user_types.go"])) with
      | some e =>
        simp only [call, hfmt, Res.ofError, FormatCode] at h4 ⊢
        refine ⟨h4, fun _ h => by simp at h, ?_⟩
        intro files e2 h
        simp only [Outcome.returned.injEq] at h
        exact h.1.symm
      | none =>
        simp only [call, hfmt, Res.ofError, FormatCode] at h4 ⊢
        refine ⟨h4, ?_, fun _ _ h => by simp at h⟩
        intro files h
        simp only [Outcome.returned.injEq, and_true] at h
        exact h.symm

/-- The media types part executes its writer on the media types of object or array shape
and adds its file, then that of the user types. -/
theorem oeff_generateMediaTypes (env : Env) (api : APIDefinition) (s : St) :
    OEff s (generateMediaTypes env api (AppOutputDir env) s).1
      (generateMediaTypes env api (AppOutputDir env) s).2
      [Filepath.Join [AppOutputDir env, "media_types.go"],
        Filepath.Join [AppOutputDir env, "user_types.go"]]
      [Filepath.Join [AppOutputDir env, "media_types.go"],
        Filepath.Join [AppOutputDir env, "user_types.go"]]
      (mediaTypesSpec api) := by
  unfold generateMediaTypes
  simp only []
  cases hio : env.io (.NewWriter (Filepath.Join [AppOutputDir env, "media_types.go"])) with
  | some e =>
    obtain ⟨heq, heff⟩ := eff_newWriter_panic env _ s e hio
      [Filepath.Join [AppOutputDir env, "media_types.go"],
        Filepath.Join [AppOutputDir env, "user_types.go"]]
      [Filepath.Join [AppOutputDir env, "media_types.go"],
        Filepath.Join [AppOutputDir env, "user_types.go"]]
    rw [heq]
    refine ⟨?_, fun _ h => by simp at h, fun _ _ h => by simp at h⟩
    have := Eff.stop heff (by simp) [Filepath.Join [AppOutputDir env, "media_types.go"],
        Filepath.Join [AppOutputDir env, "user_types.go"]]
      [Filepath.Join [AppOutputDir env, "media_types.go"],
        Filepath.Join [AppOutputDir env, "user_types.go"]] (mediaTypesSpec api)
    simpa using this
  | none =>
    obtain ⟨hnone, heff⟩ := eff_newWriter env _ s hio
    have hpair : NewWriter env (Filepath.Join [AppOutputDir env, "media_types.go"]) s =
        (none, (NewWriter env (Filepath.Join [AppOutputDir env, "media_types.go"]) s).2) :=
      Prod.ext hnone rfl
    rw [hpair]
    simp only []
    have h2 := Eff.trans heff (eff_writeHeader env
      (Filepath.Join [AppOutputDir env, "media_types.go"])
      (api.Context ++ ": Application Media Types")
      (NewWriter env (Filepath.Join [AppOutputDir env, "media_types.go"]) s).2)
    have hit := eff_iterate
      (mediaTypesIterator env (Filepath.Join [AppOutputDir env, "media_types.go"]))
      (fun _ => []) (fun _ => [])
      (fun mt => if mt.Typ.IsObject || mt.Typ.IsArray then [mt] else [])
      (eff_mediaTypesIterator env _)
      api.MediaTypes
      (WriteHeader env (Filepath.Join [AppOutputDir env, "media_types.go"])
        (api.Context ++ ": Application Media Types")
        (NewWriter env (Filepath.Join [AppOutputDir env, "media_types.go"]) s).2)
    rw [flatMap_nothing, flatMap_if_eq_filter] at hit
    have h3 := Eff.trans h2 hit
    simp only [List.append_nil, List.nil_append] at h3
    revert h3
    generalize iterate _ api.MediaTypes _ = res
    intro h3
    obtain ⟨r3, s3⟩ := res
    cases r3 with
    | panic m =>
      exact ⟨h3.of_ne_ok (by simp) _ _, fun _ h => by simp at h, fun _ _ h => by simp at h⟩
    | err e =>
      refine ⟨(h3.genfiles_append _).of_ne_ok (by simp) _ _, fun _ h => by simp at h, ?_⟩
      intro files e2 h
      simp only [Outcome.returned.injEq] at h
      exact h.1.symm
    | ok =>
      have h4 := Eff.trans
        (h3.genfiles_append (Filepath.Join [AppOutputDir env, "media_types.go"]))
        (eff_call env (.FormatCode (Filepath.Join [AppOutputDir env, "media_types.go"]))
          { s3 with genfiles := s3.genfiles ++ [Filepath.Join [AppOutputDir env, "media_types.go"]] }
          (fun _ => rfl) (fun _ => rfl))
      simp only [List.append_nil, List.nil_append] at h4
      cases hfmt : env.io (.FormatCode (Filepath.Join [AppOutputDir env, "media_types.go"])) with
      | some e =>
        simp only [call, hfmt, Res.ofError, FormatCode] at h4 ⊢
        refine ⟨h4.of_ne_ok (by simp) _ _, fun _ h => by simp at h, ?_⟩
        intro files e2 h
        simp only [Outcome.returned.injEq] at h
        exact h.1.symm
      | none =>
        simp only [call, hfmt, Res.ofError, FormatCode] at h4 ⊢
        have h5 := oeff_after h4 (oeff_generateUserTypes env api _)
        simpa [mediaTypesSpec] using h5

/-- The body of `Generator.Generate` adds the files of the run to `genfiles`, in
generation order, builds their writers and executes the media types writer on the media
types of object or array shape. -/
theorem oeff_generateBody (env : Env) (api : APIDefinition) (s : St) :
    OEff s (generateBody env api s).1 (generateBody env api s).2
      (expectedFiles env api) (expectedFiles env api) (mediaTypesSpec api) := by
  unfold generateBody
  simp only []
  have h1 := eff_iterate (generateVersion env api (AppOutputDir env))
    (versionFiles env) (versionFiles env) (fun _ => [])
    (eff_generateVersion env api) api.Versions s
  rw [flatMap_nothing] at h1
  revert h1
  generalize iterate _ api.Versions s = res
  intro h1
  obtain ⟨r1, s1⟩ := res
  cases r1 with
  | panic m =>
    refine ⟨?_, fun _ h => by simp at h, fun _ _ h => by simp at h⟩
    simpa using Eff.stop h1 (by simp) (expectedFiles env api) (expectedFiles env api)
      (mediaTypesSpec api)
  | err e =>
    refine ⟨?_, fun _ h => by simp at h, ?_⟩
    · simpa using Eff.stop h1 (by simp) (expectedFiles env api) (expectedFiles env api)
        (mediaTypesSpec api)
    · intro files e2 h
      simp only [Outcome.returned.injEq] at h
      exact h.1.symm
  | ok =>
    have h2 := oeff_after h1 (oeff_generateMediaTypes env api s1)
    simpa [expectedFiles] using h2

/-- `Cleanup` adds to the log at most its call of `os.RemoveAll`. -/
theorem Cleanup_log (env : Env) (s : St) :
    ∃ extra, (Generator.Cleanup env s).log = s.log ++ extra ∧
      mediaTypesExecuted extra = [] ∧ extra.any stepFailed = false := by
  unfold Generator.Cleanup
  split
  · exact ⟨[], by simp, rfl, rfl⟩
  · refine ⟨[(.RemoveAll (AppOutputDir env), env.io (.RemoveAll (AppOutputDir env)))],
      ?_, rfl, by simp [stepFailed, Call.isStep]⟩
    cases h : env.io (.RemoveAll (AppOutputDir env)) <;> simp [RemoveAll, call, h]

/-- After a `Cleanup` of a generator that has files, in which `os.RemoveAll` succeeds on
an output directory that is not the empty path, nothing exists in the output
directory. -/
theorem Cleanup_fs (env : Env) (s : St) (h : s.genfiles ≠ [])
    (hrm : env.io (.RemoveAll (AppOutputDir env)) = none) (hout : AppOutputDir env ≠ "") :
    ∀ p ∈ (Generator.Cleanup env s).fs, Os.within (AppOutputDir env) p = false := by
  intro p hp
  have hlen : ¬ s.genfiles.length = 0 := fun h0 => h (List.length_eq_zero.mp h0)
  simp only [Generator.Cleanup, if_neg hlen, RemoveAll, call, hrm, Os.removeAll, if_neg hout,
    List.mem_filter, Bool.not_eq_true'] at hp
  exact hp.2

/-- A directory lies within itself. -/
theorem within_self (dir : String) : Os.within dir dir = true := by
  simp [Os.within, List.isPrefixOf_iff_prefix]

/-- The generator `NewGenerator` returns has the output directory as its only file. -/
theorem NewGenerator_genfiles (env : Env) (s : St) (h : (NewGenerator env s).1 = none) :
    (NewGenerator env s).2.genfiles = [AppOutputDir env] := by
  unfold NewGenerator at h ⊢
  cases hparse : env.parse with
  | some e => simp [hparse] at h
  | none =>
    simp only [hparse] at h ⊢
    revert h
    generalize MkdirAll env (AppOutputDir env) (RemoveAll env (AppOutputDir env) s) = res
    intro h
    obtain ⟨e1, s1⟩ := res
    cases e1 with
    | some e => simp at h
    | none => rfl

/-- The log of `Generator.Generate` is the log of its body, followed by the call of
`os.RemoveAll` when the deferred function cleans up. -/
theorem Generate_log (env : Env) (api : APIDefinition) (s : St) :
    ∃ extra, (Generator.Generate env (some api) s).2.log =
        (generateBody env api s).2.log ++ extra ∧
      mediaTypesExecuted extra = [] ∧ extra.any stepFailed = false ∧
      ((Generator.Generate env (some api) s).1.err = none → extra = []) := by
  simp only [Generator.Generate]
  split
  · rename_i herr
    obtain ⟨extra, hlog, hmt, hstep⟩ := Cleanup_log env (generateBody env api s).2
    exact ⟨extra, hlog, hmt, hstep, fun h => absurd h herr⟩
  · exact ⟨[], by simp, rfl, rfl, fun _ => rfl⟩

/-- A run that returns no error: its body returned `genfiles` as it left it. -/
theorem Generate_ok (env : Env) (api : APIDefinition) (s : St) (files : List String)
    (hok : (Generator.Generate env (some api) s).1 = .returned files none) :
    (generateBody env api s).1 = .returned files none ∧
    (generateBody env api s).1.res = .ok :=
  ⟨hok, by
    have h : (generateBody env api s).1 = .returned files none := hok
    rw [h]
    rfl⟩

/-- The failures that `Generate` returns are rolled back: for a generator obtained from
`NewGenerator` and a non-nil API, if the creation of a version directory, the execution
of a writer or the formatting of a file returns an error, then `Generate` returns a nil
list with an error and, when its `os.RemoveAll` succeeds on an output directory that is
not the empty path, neither the output directory nor anything below it exists in the state
it leaves. -/
theorem Generate_error_removes (env : Env) (api : APIDefinition) (s : St)
    (hnew : (NewGenerator env s).1 = none)
    (hrm : env.io (.RemoveAll (AppOutputDir env)) = none) (hout : AppOutputDir env ≠ "")
    (hfail : ((Generator.Generate env (some api) (NewGenerator env s).2).2.log.drop
      (NewGenerator env s).2.log.length).any stepFailed = true) :
    (∃ e, (Generator.Generate env (some api) (NewGenerator env s).2).1 =
      .returned [] (some e)) ∧
    AppOutputDir env ∉ (Generator.Generate env (some api) (NewGenerator env s).2).2.fs ∧
    ∀ p ∈ (Generator.Generate env (some api) (NewGenerator env s).2).2.fs,
      Os.within (AppOutputDir env) p = false := by
  have hgen := NewGenerator_genfiles env s hnew
  obtain ⟨⟨new, hlog, -, -, hstep, hkeep⟩, -, hnil⟩ :=
    oeff_generateBody env api (NewGenerator env s).2
  obtain ⟨extra, hlog2, -, hextra, -⟩ := Generate_log env api (NewGenerator env s).2
  rw [hlog2, hlog, List.append_assoc, List.drop_left, List.any_append, hextra,
    Bool.or_false, List.any_eq_true] at hfail
  obtain ⟨e, he⟩ := hstep hfail
  have hout2 : ∃ files, (generateBody env api (NewGenerator env s).2).1 =
      .returned files (some e) := by
    revert he
    generalize (generateBody env api (NewGenerator env s).2).1 = o
    intro he
    cases o with
    | returned files err =>
      cases err with
      | none => simp [Outcome.res] at he
      | some e2 =>
        simp only [Outcome.res, Res.err.injEq] at he
        exact ⟨files, by rw [he]⟩
    | panicked msg err => simp [Outcome.res] at he
  obtain ⟨files, hfiles⟩ := hout2
  have hempty := hnil files e hfiles
  subst hempty
  have hne : (generateBody env api (NewGenerator env s).2).2.genfiles ≠ [] :=
    hkeep (by rw [hgen]; simp)
  have hfs : ∀ p ∈ (Generator.Generate env (some api) (NewGenerator env s).2).2.fs,
      Os.within (AppOutputDir env) p = false := by
    simp only [Generator.Generate, hfiles, Outcome.err, ne_eq, reduceCtorEq, not_false_eq_true,
      if_true]
    exact Cleanup_fs env _ hne hrm hout
  refine ⟨⟨e, by simp [Generator.Generate, hfiles]⟩, ?_, hfs⟩
  intro hmem
  have := hfs _ hmem
  rw [within_self] at this
  exact absurd this (by simp)

/-- C1 on the code: when the writer of the contexts file of a version cannot be built,
`generateContexts` panics while the named result `err` of `Generate` is still nil, so
that the deferred function does not clean up: `Generate` returns no error and the output
directory `gen/app` is left behind. The other failures are rolled back: when the writer
of the media types file cannot be built, `Generate` itself panics with `err` set and the
directory is removed, and so it is when formatting a file fails, which `Generate`
returns as an error. -/
theorem Generate_panic_leaves_directory :
    (NewGenerator Sample.noContexts Sample.before).1 = none ∧
    (Generator.Generate Sample.noContexts (some Sample.api)
      (NewGenerator Sample.noContexts Sample.before).2).1 =
        .panicked "cannot open file" none ∧
    (Generator.Generate Sample.noContexts (some Sample.api)
      (NewGenerator Sample.noContexts Sample.before).2).2.fs = ["gen", "gen/app"] ∧
    AppOutputDir Sample.noContexts ∈ (Generator.Generate Sample.noContexts (some Sample.api)
      (NewGenerator Sample.noContexts Sample.before).2).2.fs ∧
    (Generator.Generate Sample.noMediaTypes (some Sample.api)
      (NewGenerator Sample.noMediaTypes Sample.before).2).1 =
        .panicked "cannot open file" (some "cannot open file") ∧
    (Generator.Generate Sample.noMediaTypes (some Sample.api)
      (NewGenerator Sample.noMediaTypes Sample.before).2).2.fs = ["gen"] ∧
    (Generator.Generate Sample.failing (some Sample.api)
      (NewGenerator Sample.failing Sample.before).2).1 = .returned [] (some "format error") ∧
    (Generator.Generate Sample.failing (some Sample.api)
      (NewGenerator Sample.failing Sample.before).2).2.fs = ["gen"] := by
  decide

/-- C3 on the code: with a nil API the method `Generator.Generate` returns its error and
leaves the file system as it is, but the entry point `Generate` has run `NewGenerator`
before: on a state where `gen/app` holds a file of an earlier run the call removes that
file, on a state without `gen/app` it creates the directory, and in both it leaves the
fresh directory behind although it returns an error. -/
theorem Generate_nil_mutates :
    (Generator.Generate Sample.env none Sample.before).1 = .returned []
      (some "missing API definition, make sure design.Design is properly initialized") ∧
    (Generator.Generate Sample.env none Sample.before).2.fs = Sample.before.fs ∧
    (Generate Sample.env none Sample.before).1 = .returned []
      (some "missing API definition, make sure design.Design is properly initialized") ∧
    (Generate Sample.env none Sample.before).2.fs ≠ Sample.before.fs ∧
    (Generate Sample.env none Sample.before).2.fs = ["gen", "gen/app"] ∧
    (Generate Sample.env none { Sample.before with fs := ["gen"] }).2.fs = ["gen", "gen/app"] := by
  decide

/-- C4, as the code has it: the list a successful run returns is the output directory
followed by the paths of the files the run generated, in generation order: for each
version in order its contexts, controllers and hrefs files, then the media types file and
the user types file; it has one entry more than three for each version and two; and it
has no duplicate when the output directory is not the empty path and the versions have
different names, each of them empty or a plain name. -/
theorem Generate_files (env : Env) (api : APIDefinition) (s : St)
    (hnew : (NewGenerator env s).1 = none) (files : List String)
    (hok : (Generator.Generate env (some api) (NewGenerator env s).2).1 =
      .returned files none) :
    files = AppOutputDir env :: expectedFiles env api ∧
    filesGenerated ((Generator.Generate env (some api) (NewGenerator env s).2).2.log.drop
      (NewGenerator env s).2.log.length) = expectedFiles env api ∧
    files.length = 3 * api.Versions.length + 3 ∧
    (AppOutputDir env ≠ "" →
      (∀ v ∈ api.Versions, v.Version = "" ∨ PlainName v.Version = true) →
      (api.Versions.map (fun v => v.Version)).Nodup → files.Nodup) := by
  have hgen := NewGenerator_genfiles env s hnew
  obtain ⟨hbody, hres⟩ := Generate_ok env api _ files hok
  obtain ⟨⟨new, hlog, -, hall, -, -⟩, hret, -⟩ := oeff_generateBody env api (NewGenerator env s).2
  obtain ⟨-, hgf, hwf⟩ := hall hres
  have hfiles : files = AppOutputDir env :: expectedFiles env api := by
    rw [hret files hbody, hgf, hgen]
    rfl
  refine ⟨hfiles, ?_, ?_, ?_⟩
  · obtain ⟨extra, hlog2, -, -, hnone⟩ := Generate_log env api (NewGenerator env s).2
    rw [hlog2, hnone (by rw [hok]; rfl), List.append_nil, hlog, List.drop_left, hwf]
  · rw [hfiles]
    simp only [expectedFiles, List.length_cons, List.length_append, List.length_nil]
    have hlen : ∀ vs : List APIVersionDefinition,
        (vs.flatMap (versionFiles env)).length = 3 * vs.length := by
      intro vs
      induction vs with
      | nil => rfl
      | cons v vs ih =>
        simp only [List.flatMap_cons, List.length_append, ih, versionFiles, List.length_cons,
          List.length_nil]
        omega
    rw [hlen]
  · intro hout hver hdist
    rw [hfiles]
    exact files_nodup env api hout hver hdist

/-- Witness of C4: the list returned for the sample API, which has no duplicate. -/
theorem Generate_files_witness :
    (NewGenerator Sample.env Sample.before).1 = none ∧
    (Generator.Generate Sample.env (some Sample.api) (NewGenerator Sample.env Sample.before).2).1 =
      .returned ["gen/app", "gen/app/contexts.go", "gen/app/controllers.go",
        "gen/app/hrefs.go", "gen/app/media_types.go", "gen/app/user_types.go"] none ∧
    ["gen/app", "gen/app/contexts.go", "gen/app/controllers.go",
        "gen/app/hrefs.go", "gen/app/media_types.go", "gen/app/user_types.go"] =
      AppOutputDir Sample.env :: expectedFiles Sample.env Sample.api ∧
    ["gen/app", "gen/app/contexts.go", "gen/app/controllers.go",
        "gen/app/hrefs.go", "gen/app/media_types.go", "gen/app/user_types.go"].Nodup :=
  have h := Generate_files Sample.env Sample.api Sample.before (by decide)
    ["gen/app", "gen/app/contexts.go", "gen/app/controllers.go",
      "gen/app/hrefs.go", "gen/app/media_types.go", "gen/app/user_types.go"] (by decide)
  ⟨by decide, by decide, h.1, h.2.2.2 (by decide) (by decide) (by decide)⟩

/-- Counterexample to C4: the list returned for the sample API is not the list of the
generated files: its first entry is the output directory, which is not among the files
the run generated; and for an API that declares the version `.` next to the unnamed
version the list names every file of the output directory twice. -/
theorem Generate_files_has_outdir :
    (Generate Sample.env (some Sample.api) Sample.before).1 ≠
      .returned (expectedFiles Sample.env Sample.api) none ∧
    (Generate Sample.env (some Sample.api) Sample.before).1 =
      .returned ("gen/app" :: expectedFiles Sample.env Sample.api) none ∧
    "gen/app" ∉ filesGenerated (Generate Sample.env (some Sample.api) Sample.before).2.log ∧
    (Generate Sample.env (some Sample.dotted) Sample.before).1 =
      .returned ["gen/app", "gen/app/contexts.go", "gen/app/controllers.go", "gen/app/hrefs.go",
        "gen/app/contexts.go", "gen/app/controllers.go", "gen/app/hrefs.go",
        "gen/app/media_types.go", "gen/app/user_types.go"] none ∧
    ¬ ["gen/app", "gen/app/contexts.go", "gen/app/controllers.go", "gen/app/hrefs.go",
        "gen/app/contexts.go", "gen/app/controllers.go", "gen/app/hrefs.go",
        "gen/app/media_types.go", "gen/app/user_types.go"].Nodup := by
  decide

/-- C9: the media types writer is executed on media types of the API of object or array
shape only, in their order and each at most once, whatever the run does; in a run that
returns no error it is executed exactly once on each of them. -/
theorem Generate_mediaTypes (env : Env) (api : APIDefinition) (s : St) (files : List String)
    (hok : (Generator.Generate env (some api) s).1 = .returned files none) :
    mediaTypesExecuted ((Generator.Generate env (some api) s).2.log.drop s.log.length) =
      api.MediaTypes.filter (fun mt => mt.Typ.IsObject || mt.Typ.IsArray) ∧
    ∀ env1 s1, mediaTypesExecuted ((Generator.Generate env1 (some api) s1).2.log.drop
        s1.log.length) <+:
      api.MediaTypes.filter (fun mt => mt.Typ.IsObject || mt.Typ.IsArray) := by
  constructor
  · obtain ⟨-, hres⟩ := Generate_ok env api s files hok
    obtain ⟨⟨new, hlog, -, hall, -, -⟩, -, -⟩ := oeff_generateBody env api s
    obtain ⟨extra, hlog2, hmt, -, -⟩ := Generate_log env api s
    rw [hlog2, hlog, List.append_assoc, List.drop_left]
    simp only [mediaTypesExecuted, List.filterMap_append] at hmt ⊢
    rw [hmt, List.append_nil]
    exact (hall hres).1
  · intro env1 s1
    obtain ⟨⟨new, hlog, hprefix, -, -, -⟩, -, -⟩ := oeff_generateBody env1 api s1
    obtain ⟨extra, hlog2, hmt, -, -⟩ := Generate_log env1 api s1
    rw [hlog2, hlog, List.append_assoc, List.drop_left]
    simp only [mediaTypesExecuted, List.filterMap_append] at hmt hprefix ⊢
    rw [hmt, List.append_nil]
    exact hprefix

/-- Witness of C9: in the sample run the writer is executed on the object media type and
not on the one of primitive shape. -/
theorem Generate_mediaTypes_witness :
    mediaTypesExecuted ((Generator.Generate Sample.env (some Sample.api)
      (NewGenerator Sample.env Sample.before).2).2.log.drop
        (NewGenerator Sample.env Sample.before).2.log.length) = [Sample.bottleMedia] :=
  (Generate_mediaTypes Sample.env Sample.api (NewGenerator Sample.env Sample.before).2
    ["gen/app", "gen/app/contexts.go", "gen/app/controllers.go",
      "gen/app/hrefs.go", "gen/app/media_types.go", "gen/app/user_types.go"]
    (by decide)).1.trans (by decide)

/-- C6 on the code: for the resource `account`, whose responses are `OK`, the record of
the action `create` has the responses `Created` and `OK`, and so has the record of the
action `show`, which declares no response; the merge of the responses declared on the
resource and on `show` is `OK` alone. -/
theorem generateContexts_leaks_responses :
    contextsExecuted (generateContexts Sample.env "gen/app" Sample.api
      ⟨"", "API", [Sample.account]⟩ Sample.accountBefore).2.log =
      [("create", some ["Created", "OK"]), ("show", some ["Created", "OK"])] ∧
    (mergeSpec (deref Sample.accountHeap Sample.account.Responses)
      (deref Sample.accountHeap none)).map AList.keys = some ["OK"] := by
  decide

end Genapp

end Goa
